import Mathlib

/-!
# Verification of the AgentWatch review core

Shallow embedding of the review batching queue (`reviewQueue.ts`), the
agentic review loop and response parser (`reviewEngine.ts`) of the
`agent-watch` repository, together with proofs about the behaviour that
the design document ascribes to them.

Conventions of the embedding:
* JavaScript strings are modelled as Lean `String` (scalar code points).
* The `Map`/`Set` objects of the queue module are modelled as
  association lists / duplicate-free lists of keys.
* Timer-driven behaviour is modelled by an explicit operation trace:
  the `setTimeout` callback of a scheduled flush becomes a `fireTimer`
  step that is a no-op when no timer is armed, exactly like the real
  event loop which never runs a cleared timeout.
* The git collaborator `getFileDiff` is a parameter of type
  `String → Except String String`: `.error e` models a rejected promise,
  `.ok ""` models an empty/absent diff (both `''` and `null` are falsy
  in the JavaScript source and are treated identically by it).
-/

namespace AgentWatch

/-- 2^32, the modulus of JavaScript 32-bit integer arithmetic. -/
def two32 : Nat := 4294967296

/-- One step of the diff hash of `reviewQueue.ts` (`hashDiff`): JavaScript
`h = Math.imul(h, 31) ^ s.charCodeAt(i)`.  `Math.imul` is 32-bit wrap-around
multiplication and `^` is bitwise xor; on the unsigned residues used here the
bit patterns agree with arithmetic modulo 2^32. -/
def hashStep (h c : Nat) : Nat := (h * 31 % two32) ^^^ c

/-- `hashDiff` of `reviewQueue.ts`: djb2-style fold over the character codes
of the diff, seed 5381.  The source renders the final 32-bit value in base
36 (`(h >>> 0).toString(36)`) before storing it; that rendering is an
injective formatting step, so the fingerprint is modelled as the `Nat`
value itself. -/
def hashDiff (s : String) : Nat :=
  s.data.foldl (fun h c => hashStep h c.toNat) 5381

/-- Lookup in the fingerprint map (`reviewedDiffHash.get`). -/
def mapLookup (m : List (String × Nat)) (k : String) : Option Nat :=
  match m with
  | [] => none
  | (k', v) :: rest => if k' = k then some v else mapLookup rest k

/-- Update in the fingerprint map (`reviewedDiffHash.set`): replaces the
binding of an existing key, otherwise appends (JavaScript `Map` keeps
insertion order; only key/value content is observable here). -/
def mapSet (m : List (String × Nat)) (k : String) (v : Nat) : List (String × Nat) :=
  match m with
  | [] => [(k, v)]
  | (k', v') :: rest => if k' = k then (k, v) :: rest else (k', v') :: mapSet rest k v

/-- Insertion into the pending set (`pendingFiles.add`): idempotent. -/
def setAdd (s : List String) (f : String) : List String :=
  if f ∈ s then s else s ++ [f]

/-- Result of `getFileDiff`: `.error` models a rejected promise (caught by
the flush loop), `.ok d` a resolved diff string (`""` standing for both the
empty string and `null`, which the source treats identically via `!diff`). -/
abbrev DiffOracle := String → Except String String

/-- Module state of `reviewQueue.ts`.  The callback registrations
(`onBatchReady`, `onCountdown`, `onBatchEmpty`) are assumed present for an
armed session; which callback a flush would invoke is reported as an
explicit event instead of being stored in the state. -/
structure QueueState where
  minIntervalMs : Nat
  pendingFiles : List String
  lastReviewAt : Nat
  reviewedDiffHash : List (String × Nat)
  flushTimerActive : Bool
  countdownActive : Bool

/-- The state `resetQueue` establishes (and the module's initial state). -/
def initialQueue : QueueState :=
  { minIntervalMs := 30000
    pendingFiles := []
    lastReviewAt := 0
    reviewedDiffHash := []
    flushTimerActive := false
    countdownActive := false }

/-- Observable events of a queue run: per-file dispatch records plus the
batch-level callback that fires at the end of a flush. -/
inductive QEv where
  /-- file dispatched with a freshly fetched diff whose hash is `h` -/
  | dispatched (f : String) (h : Nat)
  /-- file dispatched defensively because its diff fetch failed -/
  | dispatchedErr (f : String)
  /-- `onBatchReady` invoked with this batch -/
  | ready (batch : List String)
  /-- `onBatchEmpty` invoked -/
  | empty
  deriving DecidableEq

/-- The body of the `for (const filePath of candidates)` loop of `runFlush`
(lines 203–219 of `reviewQueue.ts`): given the fingerprint map, classify one
candidate file by its fetched diff, returning the updated map and the
dispatch events this iteration produces (`try { … } catch { toReview.push }`). -/
def flushStep (diffOf : DiffOracle) (fp : List (String × Nat)) (file : String) :
    List (String × Nat) × List QEv :=
  match diffOf file with
  | .error _ => (fp, [QEv.dispatchedErr file])
  | .ok d =>
    if d = "" then (fp, [])
    else
      let h := hashDiff d
      if mapLookup fp file = some h then (fp, [])
      else (mapSet fp file h, [QEv.dispatched file h])

/-- The candidate loop of `runFlush` over a whole candidate list, threading
the fingerprint map and concatenating the per-file dispatch events in
iteration order. -/
def flushFold (diffOf : DiffOracle) (fp : List (String × Nat)) :
    List String → List (String × Nat) × List QEv
  | [] => (fp, [])
  | c :: cs =>
    let s := flushStep diffOf fp c
    let rest := flushFold diffOf s.1 cs
    (rest.1, s.2 ++ rest.2)

/-- The files a list of flush events dispatches (the `toReview` array). -/
def batchOf (evs : List QEv) : List String :=
  evs.filterMap fun e =>
    match e with
    | QEv.dispatched f _ => some f
    | QEv.dispatchedErr f => some f
    | _ => none

/-- `runFlush` of `reviewQueue.ts`: early return on an empty pending set;
otherwise snapshot and clear the pending set, stamp `lastReviewAt`, filter
candidates by diff, then invoke exactly one of `onBatchReady`/`onBatchEmpty`. -/
def runFlush (diffOf : DiffOracle) (now : Nat) (st : QueueState) :
    QueueState × List QEv :=
  if st.pendingFiles = [] then (st, [])
  else
    let res := flushFold diffOf st.reviewedDiffHash st.pendingFiles
    let batch := batchOf res.2
    ({ st with
        pendingFiles := []
        lastReviewAt := now
        reviewedDiffHash := res.1 },
      res.2 ++ [if batch = [] then QEv.empty else QEv.ready batch])

/-- The delay computation of `scheduleFlush`:
`Math.max(0, minIntervalMs - (Date.now() - lastReviewAt))`. -/
def computeDelay (now lastReviewAt minIntervalMs : Nat) : Nat :=
  (max 0 ((minIntervalMs : Int) - ((now : Int) - (lastReviewAt : Int)))).toNat

/-- The countdown interval callback of `scheduleFlush` (lines 162–169):
at each 1000 ms tick, decrement `remaining`; emit it while it is still
positive, otherwise stop the ticker and emit nothing further.  `fuel` is the
number of interval ticks that occur before the flush timeout (which also
stops the ticker) fires: ticks happen at 1000·k ms for 1000·k ≤ delay, so
`fuel = delay / 1000` (at a shared deadline the interval, registered first,
runs before the timeout). -/
def countdownTicks : Nat → Nat → List Nat
  | _, 0 => []
  | remaining, fuel + 1 =>
    let r := remaining - 1
    if 0 < r then r :: countdownTicks r fuel else []

/-- The full emission sequence of the countdown machinery of `scheduleFlush`
(lines 159–170): when the delay is positive and a countdown callback is
registered, emit `Math.ceil(delay / 1000)` immediately and then tick once
per second. -/
def scheduleCountdown (delay : Nat) (hasOnCountdown : Bool) : List Nat :=
  if 0 < delay ∧ hasOnCountdown = true then
    let m := (delay + 999) / 1000
    m :: countdownTicks m (delay / 1000)
  else []

/-- Operations on the queue.  `fireTimer` models the `setTimeout` callback
installed by `scheduleFlush`: it only does anything when a flush timer is
armed (a cleared timeout never runs). -/
inductive QOp where
  | configure (ms : Nat)
  | enqueue (f : String) (now : Nat)
  | fireTimer (diffOf : DiffOracle) (now : Nat)
  | cancelPending
  | resetQueue

/-- Dispatch-log segments: events of the current armed session plus the
closed sessions before it (each `resetQueue` closes a segment). -/
structure QTrace where
  state : QueueState
  closedSegs : List (List QEv)
  curSeg : List QEv

/-- `enqueueFile` followed by `scheduleFlush` (lines 106–109 and 153–177):
adds the file to the pending set and, when no flush is pending, arms the
flush timer and — when the computed delay is positive — the countdown. -/
def enqueueStep (f : String) (now : Nat) (st : QueueState) : QueueState :=
  let st := { st with pendingFiles := setAdd st.pendingFiles f }
  if st.flushTimerActive then st
  else
    let delay := computeDelay now st.lastReviewAt st.minIntervalMs
    { st with
        flushTimerActive := true
        countdownActive := decide (0 < delay) }

/-- `cancelPending` (lines 117–124). -/
def cancelStep (st : QueueState) : QueueState :=
  { st with
      pendingFiles := []
      countdownActive := false
      flushTimerActive := false }

/-- One trace step. -/
def qStep (t : QTrace) : QOp → QTrace
  | QOp.configure ms => { t with state := { t.state with minIntervalMs := ms } }
  | QOp.enqueue f now => { t with state := enqueueStep f now t.state }
  | QOp.fireTimer diffOf now =>
    if t.state.flushTimerActive then
      let st := { t.state with flushTimerActive := false, countdownActive := false }
      let res := runFlush diffOf now st
      { t with state := res.1, curSeg := t.curSeg ++ res.2 }
    else t
  | QOp.cancelPending => { t with state := cancelStep t.state }
  | QOp.resetQueue =>
    { state := initialQueue
      closedSegs := t.closedSegs ++ [t.curSeg]
      curSeg := [] }

/-- Running a whole operation list from a trace. -/
def qRun (t : QTrace) : List QOp → QTrace
  | [] => t
  | op :: ops => qRun (qStep t op) ops

/-- The trace at module load / right after `resetQueue`. -/
def initialTrace : QTrace :=
  { state := initialQueue, closedSegs := [], curSeg := [] }

/-- All dispatch-log segments of a trace, oldest first. -/
def QTrace.segs (t : QTrace) : List (List QEv) :=
  t.closedSegs ++ [t.curSeg]

/-- The fingerprints with which a given file was dispatched (successfully
fetched diffs only), in dispatch order. -/
def fpTrace (f : String) (evs : List QEv) : List Nat :=
  evs.filterMap fun e =>
    match e with
    | QEv.dispatched g h => if g = f then some h else none
    | _ => none

/-! ## Map and event-list lemmas -/

theorem mapLookup_set_self (m : List (String × Nat)) (k : String) (v : Nat) :
    mapLookup (mapSet m k v) k = some v := by
  induction m with
  | nil => simp [mapSet, mapLookup]
  | cons hd tl ih =>
    obtain ⟨k', v'⟩ := hd
    by_cases h : k' = k <;> simp [mapSet, mapLookup, h, ih]

theorem mapLookup_set_ne (m : List (String × Nat)) (k k' : String) (v : Nat)
    (h : k' ≠ k) : mapLookup (mapSet m k v) k' = mapLookup m k' := by
  have hkk' : ¬k = k' := fun hh => h hh.symm
  induction m with
  | nil => simp [mapSet, mapLookup, hkk']
  | cons hd tl ih =>
    obtain ⟨k₀, v₀⟩ := hd
    by_cases hk : k₀ = k
    · subst hk
      simp [mapSet, mapLookup, hkk']
    · by_cases hk' : k₀ = k' <;> simp [mapSet, mapLookup, hk, hk', ih, h]

theorem fpTrace_append (f : String) (a b : List QEv) :
    fpTrace f (a ++ b) = fpTrace f a ++ fpTrace f b := by
  simp [fpTrace]

theorem batchOf_append (a b : List QEv) :
    batchOf (a ++ b) = batchOf a ++ batchOf b := by
  simp [batchOf]

@[simp] theorem fpTrace_nil (f : String) : fpTrace f [] = [] := rfl

@[simp] theorem fpTrace_cons_ready (f : String) (b : List String) (evs : List QEv) :
    fpTrace f (QEv.ready b :: evs) = fpTrace f evs := by
  simp [fpTrace]

@[simp] theorem fpTrace_cons_empty (f : String) (evs : List QEv) :
    fpTrace f (QEv.empty :: evs) = fpTrace f evs := by
  simp [fpTrace]

@[simp] theorem fpTrace_cons_err (f g : String) (evs : List QEv) :
    fpTrace f (QEv.dispatchedErr g :: evs) = fpTrace f evs := by
  simp [fpTrace]

@[simp] theorem fpTrace_cons_dispatched_self (f : String) (h : Nat) (evs : List QEv) :
    fpTrace f (QEv.dispatched f h :: evs) = h :: fpTrace f evs := by
  simp [fpTrace]

theorem fpTrace_cons_dispatched_other (f g : String) (hfg : ¬g = f) (h : Nat)
    (evs : List QEv) : fpTrace f (QEv.dispatched g h :: evs) = fpTrace f evs := by
  simp [fpTrace, hfg]

/-! ## Per-file analysis of the flush loop -/

/-- The hash with which a file would be dispatched in a flush, if its diff
fetch succeeds with a nonempty diff. -/
def successHash (diffOf : DiffOracle) (f : String) : Option Nat :=
  match diffOf f with
  | .ok d => if d = "" then none else some (hashDiff d)
  | .error _ => none

/-- In one flush, any given file's fingerprint either stays untouched with
no fingerprinted dispatch, or is dispatched exactly once with a hash that
differs from its stored fingerprint, which is then updated to that hash. -/
theorem flushFold_fpTrace_cases (diffOf : DiffOracle) (f : String) :
    ∀ (cs : List String) (fp : List (String × Nat)),
      (fpTrace f (flushFold diffOf fp cs).2 = [] ∧
        mapLookup (flushFold diffOf fp cs).1 f = mapLookup fp f)
      ∨ (∃ h, successHash diffOf f = some h ∧
          mapLookup fp f ≠ some h ∧
          fpTrace f (flushFold diffOf fp cs).2 = [h] ∧
          mapLookup (flushFold diffOf fp cs).1 f = some h) := by
  intro cs
  induction cs with
  | nil => intro fp; exact Or.inl ⟨rfl, rfl⟩
  | cons c cs ih =>
    intro fp
    by_cases hcf : c = f
    · subst hcf
      cases hd : diffOf c with
      | error e =>
        rcases ih fp with ⟨h1, h2⟩ | ⟨h, hs, hne, h1, h2⟩
        · exact Or.inl (by simp [flushFold, flushStep, hd, fpTrace_append, h1, h2])
        · exact Or.inr ⟨h, hs, hne, by simp [flushFold, flushStep, hd, fpTrace_append, h1], by
            simp [flushFold, flushStep, hd, h2]⟩
      | ok d =>
        by_cases hde : d = ""
        · subst hde
          rcases ih fp with ⟨h1, h2⟩ | ⟨h, hs, hne, h1, h2⟩
          · exact Or.inl (by simp [flushFold, flushStep, hd, fpTrace_append, h1, h2])
          · exact Or.inr ⟨h, hs, hne, by simp [flushFold, flushStep, hd, fpTrace_append, h1], by
              simp [flushFold, flushStep, hd, h2]⟩
        · by_cases hseen : mapLookup fp c = some (hashDiff d)
          · rcases ih fp with ⟨h1, h2⟩ | ⟨h, hs, hne, h1, h2⟩
            · exact Or.inl (by
                simp [flushFold, flushStep, hd, hde, hseen, fpTrace_append, h1, h2])
            · exfalso
              have hs' : successHash diffOf c = some (hashDiff d) := by
                simp [successHash, hd, hde]
              rw [hs'] at hs
              have hh : hashDiff d = h := Option.some_inj.mp hs
              exact hne (hh ▸ hseen)
          · -- fresh diff: dispatch now; the tail cannot dispatch `c` again
            -- because its fingerprint is now the hash of its (unchanged) diff
            rcases ih (mapSet fp c (hashDiff d)) with ⟨h1, h2⟩ | ⟨h, hs, hne, h1, h2⟩
            · refine Or.inr ⟨hashDiff d, by simp [successHash, hd, hde], hseen, ?_, ?_⟩
              · simp [flushFold, flushStep, hd, hde, hseen, fpTrace_append, h1]
              · simp [flushFold, flushStep, hd, hde, hseen, h2, mapLookup_set_self]
            · exfalso
              have hs' : successHash diffOf c = some (hashDiff d) := by
                simp [successHash, hd, hde]
              rw [hs'] at hs
              have hh : hashDiff d = h := Option.some_inj.mp hs
              subst hh
              exact hne (by simp [mapLookup_set_self])
    · -- the head candidate is a different file: its step does not touch `f`
      have hstep_fp : mapLookup (flushStep diffOf fp c).1 f = mapLookup fp f := by
        cases hd : diffOf c with
        | error e => simp [flushStep, hd]
        | ok d =>
          by_cases hde : d = ""
          · simp [flushStep, hd, hde]
          · by_cases hseen : mapLookup fp c = some (hashDiff d) <;>
              simp [flushStep, hd, hde, hseen, mapLookup_set_ne _ _ _ _ (Ne.symm hcf)]
      have hstep_ev : fpTrace f (flushStep diffOf fp c).2 = [] := by
        cases hd : diffOf c with
        | error e => simp [flushStep, hd]
        | ok d =>
          by_cases hde : d = ""
          · simp [flushStep, hd, hde]
          · by_cases hseen : mapLookup fp c = some (hashDiff d) <;>
              simp [flushStep, hd, hde, hseen, fpTrace_cons_dispatched_other _ _ hcf]
      rcases ih (flushStep diffOf fp c).1 with ⟨h1, h2⟩ | ⟨h, hs, hne, h1, h2⟩
      · exact Or.inl (by
          simp [flushFold, fpTrace_append, hstep_ev, h1, h2, hstep_fp])
      · exact Or.inr ⟨h, hs, by rwa [hstep_fp] at hne, by
          simp [flushFold, fpTrace_append, hstep_ev, h1], by simp [flushFold, h2]⟩

/-! ## Batch membership analysis of the flush loop -/

@[simp] theorem batchOf_nil : batchOf [] = [] := rfl

@[simp] theorem batchOf_cons_dispatched (g : String) (h : Nat) (evs : List QEv) :
    batchOf (QEv.dispatched g h :: evs) = g :: batchOf evs := by
  simp [batchOf]

@[simp] theorem batchOf_cons_err (g : String) (evs : List QEv) :
    batchOf (QEv.dispatchedErr g :: evs) = g :: batchOf evs := by
  simp [batchOf]

@[simp] theorem batchOf_cons_ready (b : List String) (evs : List QEv) :
    batchOf (QEv.ready b :: evs) = batchOf evs := by
  simp [batchOf]

@[simp] theorem batchOf_cons_empty (evs : List QEv) :
    batchOf (QEv.empty :: evs) = batchOf evs := by
  simp [batchOf]

theorem flushStep_lookup_other (diffOf : DiffOracle) (fp : List (String × Nat))
    (c f : String) (hcf : ¬c = f) :
    mapLookup (flushStep diffOf fp c).1 f = mapLookup fp f := by
  cases hd : diffOf c with
  | error e => simp [flushStep, hd]
  | ok d =>
    by_cases hde : d = ""
    · simp [flushStep, hd, hde]
    · by_cases hseen : mapLookup fp c = some (hashDiff d) <;>
        simp [flushStep, hd, hde, hseen, mapLookup_set_ne _ _ _ _ (Ne.symm hcf)]

theorem flushStep_batch_other (diffOf : DiffOracle) (fp : List (String × Nat))
    (c f : String) (hcf : ¬c = f) :
    f ∉ batchOf (flushStep diffOf fp c).2 := by
  have hfc : ¬f = c := fun h => hcf h.symm
  cases hd : diffOf c with
  | error e => simp [flushStep, hd, hfc]
  | ok d =>
    by_cases hde : d = ""
    · simp [flushStep, hd, hde]
    · by_cases hseen : mapLookup fp c = some (hashDiff d) <;>
        simp [flushStep, hd, hde, hseen, hfc]

/-- A file that is not among the candidates is neither dispatched nor has
its fingerprint touched. -/
theorem flushFold_not_mem (diffOf : DiffOracle) (f : String) :
    ∀ (cs : List String) (fp : List (String × Nat)), f ∉ cs →
      mapLookup (flushFold diffOf fp cs).1 f = mapLookup fp f ∧
        f ∉ batchOf (flushFold diffOf fp cs).2 := by
  intro cs
  induction cs with
  | nil => intro fp _; exact ⟨rfl, by simp [flushFold]⟩
  | cons c cs ih =>
    intro fp hf
    have hcf : ¬c = f := fun h => hf (h ▸ List.mem_cons_self c cs)
    have hf' : f ∉ cs := fun h => hf (List.mem_cons_of_mem c h)
    obtain ⟨ih1, ih2⟩ := ih (flushStep diffOf fp c).1 hf'
    refine ⟨?_, ?_⟩
    · simp [flushFold, ih1, flushStep_lookup_other diffOf fp c f hcf]
    · simp only [flushFold, batchOf_append, List.mem_append]
      exact fun h => h.elim (flushStep_batch_other diffOf fp c f hcf) ih2

/-- Per-file classification of one flush (the four branches of the candidate
loop of `runFlush`), for a duplicate-free candidate list. -/
theorem flushFold_mem_spec (diffOf : DiffOracle) (f : String) :
    ∀ (cs : List String) (fp : List (String × Nat)), cs.Nodup → f ∈ cs →
      ((∀ e, diffOf f = .error e →
          f ∈ batchOf (flushFold diffOf fp cs).2 ∧
            mapLookup (flushFold diffOf fp cs).1 f = mapLookup fp f) ∧
        (diffOf f = .ok "" →
          f ∉ batchOf (flushFold diffOf fp cs).2 ∧
            mapLookup (flushFold diffOf fp cs).1 f = mapLookup fp f) ∧
        (∀ d, diffOf f = .ok d → d ≠ "" → mapLookup fp f = some (hashDiff d) →
          f ∉ batchOf (flushFold diffOf fp cs).2 ∧
            mapLookup (flushFold diffOf fp cs).1 f = mapLookup fp f) ∧
        (∀ d, diffOf f = .ok d → d ≠ "" → mapLookup fp f ≠ some (hashDiff d) →
          f ∈ batchOf (flushFold diffOf fp cs).2 ∧
            mapLookup (flushFold diffOf fp cs).1 f = some (hashDiff d))) := by
  intro cs
  induction cs with
  | nil => intro fp _ hf; exact absurd hf (List.not_mem_nil f)
  | cons c cs ih =>
    intro fp hnd hf
    rcases List.mem_cons.mp hf with hcf | hftail
    · -- the head candidate is `f` itself; by Nodup it does not recur in the tail
      subst hcf
      have htail : f ∉ cs := (List.nodup_cons.mp hnd).1
      refine ⟨?_, ?_, ?_, ?_⟩
      · intro e hd
        obtain ⟨t1, t2⟩ := flushFold_not_mem diffOf f cs (flushStep diffOf fp f).1 htail
        constructor
        · simp [flushFold, flushStep, hd, batchOf_append]
        · simpa [flushFold, flushStep, hd] using t1
      · intro hd
        obtain ⟨t1, t2⟩ := flushFold_not_mem diffOf f cs (flushStep diffOf fp f).1 htail
        constructor
        · simp only [flushFold, batchOf_append, List.mem_append]
          rintro (h | h)
          · simp [flushStep, hd] at h
          · exact t2 h
        · simpa [flushFold, flushStep, hd] using t1
      · intro d hd hde hseen
        obtain ⟨t1, t2⟩ := flushFold_not_mem diffOf f cs (flushStep diffOf fp f).1 htail
        constructor
        · simp only [flushFold, batchOf_append, List.mem_append]
          rintro (h | h)
          · simp [flushStep, hd, hde, hseen] at h
          · exact t2 h
        · simpa [flushFold, flushStep, hd, hde, hseen] using t1
      · intro d hd hde hseen
        obtain ⟨t1, t2⟩ := flushFold_not_mem diffOf f cs (flushStep diffOf fp f).1 htail
        constructor
        · simp [flushFold, flushStep, hd, hde, hseen, batchOf_append]
        · have hset : mapLookup (flushStep diffOf fp f).1 f = some (hashDiff d) := by
            simp [flushStep, hd, hde, hseen, mapLookup_set_self]
          rw [show (flushFold diffOf fp (f :: cs)).1 =
              (flushFold diffOf (flushStep diffOf fp f).1 cs).1 from rfl, t1, hset]
    · -- the head candidate is a different file
      have hcf : ¬c = f := by
        rintro rfl
        exact (List.nodup_cons.mp hnd).1 hftail
      have hlk := flushStep_lookup_other diffOf fp c f hcf
      have hbt := flushStep_batch_other diffOf fp c f hcf
      obtain ⟨i1, i2, i3, i4⟩ := ih (flushStep diffOf fp c).1 (List.nodup_cons.mp hnd).2 hftail
      refine ⟨?_, ?_, ?_, ?_⟩
      · intro e hd
        obtain ⟨m1, m2⟩ := i1 e hd
        exact ⟨by simp only [flushFold, batchOf_append, List.mem_append]; exact Or.inr m1,
          by simp only [flushFold]; rw [m2, hlk]⟩
      · intro hd
        obtain ⟨m1, m2⟩ := i2 hd
        refine ⟨?_, by simp only [flushFold]; rw [m2, hlk]⟩
        simp only [flushFold, batchOf_append, List.mem_append]
        exact fun h => h.elim hbt m1
      · intro d hd hde hseen
        obtain ⟨m1, m2⟩ := i3 d hd hde (by rw [hlk]; exact hseen)
        refine ⟨?_, by simp only [flushFold]; rw [m2, hlk]⟩
        simp only [flushFold, batchOf_append, List.mem_append]
        exact fun h => h.elim hbt m1
      · intro d hd hde hseen
        obtain ⟨m1, m2⟩ := i4 d hd hde (by rw [hlk]; exact hseen)
        exact ⟨by simp only [flushFold, batchOf_append, List.mem_append]; exact Or.inr m1,
          by simp only [flushFold]; rw [m2]⟩

/-! ## The callback invoked at the end of a flush -/

/-- The batch-level callback invocations among a list of events
(`onBatchReady`/`onBatchEmpty`). -/
def callbackEvs (evs : List QEv) : List QEv :=
  evs.filterMap fun e =>
    match e with
    | QEv.ready b => some (QEv.ready b)
    | QEv.empty => some QEv.empty
    | _ => none

@[simp] theorem callbackEvs_nil : callbackEvs [] = [] := rfl

theorem callbackEvs_append (a b : List QEv) :
    callbackEvs (a ++ b) = callbackEvs a ++ callbackEvs b := by
  simp [callbackEvs]

theorem flushStep_batch_cases (diffOf : DiffOracle) (fp : List (String × Nat))
    (c : String) :
    batchOf (flushStep diffOf fp c).2 = [] ∨ batchOf (flushStep diffOf fp c).2 = [c] := by
  cases hd : diffOf c with
  | error e => exact Or.inr (by simp [flushStep, hd])
  | ok d =>
    by_cases hde : d = ""
    · exact Or.inl (by simp [flushStep, hd, hde])
    · by_cases hseen : mapLookup fp c = some (hashDiff d)
      · exact Or.inl (by simp [flushStep, hd, hde, hseen])
      · exact Or.inr (by simp [flushStep, hd, hde, hseen])

theorem callbackEvs_flushStep (diffOf : DiffOracle) (fp : List (String × Nat))
    (c : String) : callbackEvs (flushStep diffOf fp c).2 = [] := by
  cases hd : diffOf c with
  | error e => simp [flushStep, hd, callbackEvs]
  | ok d =>
    by_cases hde : d = ""
    · simp [flushStep, hd, hde]
    · by_cases hseen : mapLookup fp c = some (hashDiff d) <;>
        simp [flushStep, hd, hde, hseen, callbackEvs]

/-- The candidate loop of a flush invokes no batch-level callback itself. -/
theorem callbackEvs_flushFold (diffOf : DiffOracle) :
    ∀ (cs : List String) (fp : List (String × Nat)),
      callbackEvs (flushFold diffOf fp cs).2 = [] := by
  intro cs
  induction cs with
  | nil => intro fp; rfl
  | cons c cs ih =>
    intro fp
    simp [flushFold, callbackEvs_append, callbackEvs_flushStep, ih]

/-- The dispatched batch is a sublist of the candidate list. -/
theorem flushFold_batch_sublist (diffOf : DiffOracle) :
    ∀ (cs : List String) (fp : List (String × Nat)),
      (batchOf (flushFold diffOf fp cs).2).Sublist cs := by
  intro cs
  induction cs with
  | nil => intro fp; simp [flushFold]
  | cons c cs ih =>
    intro fp
    have : batchOf (flushFold diffOf fp (c :: cs)).2 =
        batchOf (flushStep diffOf fp c).2 ++
          batchOf (flushFold diffOf (flushStep diffOf fp c).1 cs).2 := by
      simp [flushFold, batchOf_append]
    rw [this]
    rcases flushStep_batch_cases diffOf fp c with hc | hc
    · rw [hc, List.nil_append]
      exact (ih (flushStep diffOf fp c).1).cons c
    · rw [hc]
      exact (ih (flushStep diffOf fp c).1).cons₂ c

@[simp] theorem fpTrace_callback_if (f : String) (c : Prop) [Decidable c]
    (b : List String) :
    fpTrace f [if c then QEv.empty else QEv.ready b] = [] := by
  split <;> simp

@[simp] theorem batchOf_callback_if (c : Prop) [Decidable c] (b : List String) :
    batchOf [if c then QEv.empty else QEv.ready b] = [] := by
  split <;> simp

/-! ## The queue-state invariant along a trace -/

theorem setAdd_nodup (s : List String) (f : String) (h : s.Nodup) :
    (setAdd s f).Nodup := by
  unfold setAdd
  by_cases hf : f ∈ s
  · simpa [hf] using h
  · simp [hf, List.nodup_append, h]

/-- Invariant carried along every queue trace: the pending set is
duplicate-free, the stored fingerprint of each file is the hash of its most
recent fingerprinted dispatch of the current session, and within every
session segment no file is ever dispatched twice in a row with the same
fingerprint. -/
def QInv (t : QTrace) : Prop :=
  t.state.pendingFiles.Nodup ∧
  (∀ f, mapLookup t.state.reviewedDiffHash f = (fpTrace f t.curSeg).getLast?) ∧
  (∀ seg ∈ t.segs, ∀ f, List.Chain' (· ≠ ·) (fpTrace f seg))

theorem qInv_initial : QInv initialTrace := by
  refine ⟨List.nodup_nil, fun f => rfl, ?_⟩
  intro seg hseg f
  simp [initialTrace, QTrace.segs] at hseg
  simp [hseg, fpTrace]

theorem enqueueStep_pending (f : String) (now : Nat) (st : QueueState) :
    (enqueueStep f now st).pendingFiles = setAdd st.pendingFiles f := by
  by_cases hft : st.flushTimerActive <;> simp [enqueueStep, hft]

theorem enqueueStep_fp (f : String) (now : Nat) (st : QueueState) :
    (enqueueStep f now st).reviewedDiffHash = st.reviewedDiffHash := by
  by_cases hft : st.flushTimerActive <;> simp [enqueueStep, hft]

theorem enqueueStep_minInterval (f : String) (now : Nat) (st : QueueState) :
    (enqueueStep f now st).minIntervalMs = st.minIntervalMs := by
  by_cases hft : st.flushTimerActive <;> simp [enqueueStep, hft]

theorem enqueueStep_lastReviewAt (f : String) (now : Nat) (st : QueueState) :
    (enqueueStep f now st).lastReviewAt = st.lastReviewAt := by
  by_cases hft : st.flushTimerActive <;> simp [enqueueStep, hft]

theorem runFlush_empty (diffOf : DiffOracle) (now : Nat) (st : QueueState)
    (hpend : st.pendingFiles = []) : runFlush diffOf now st = (st, []) := by
  simp [runFlush, hpend]

theorem runFlush_nonempty (diffOf : DiffOracle) (now : Nat) (st : QueueState)
    (hpend : st.pendingFiles ≠ []) :
    runFlush diffOf now st =
      ({ st with
          pendingFiles := []
          lastReviewAt := now
          reviewedDiffHash := (flushFold diffOf st.reviewedDiffHash st.pendingFiles).1 },
        (flushFold diffOf st.reviewedDiffHash st.pendingFiles).2 ++
          [if batchOf (flushFold diffOf st.reviewedDiffHash st.pendingFiles).2 = []
            then QEv.empty
            else QEv.ready (batchOf (flushFold diffOf st.reviewedDiffHash st.pendingFiles).2)]) := by
  simp [runFlush, hpend]

theorem qStep_fire_inactive (t : QTrace) (diffOf : DiffOracle) (now : Nat)
    (hact : t.state.flushTimerActive = false) :
    qStep t (QOp.fireTimer diffOf now) = t := by
  simp [qStep, hact]

theorem qStep_fire_empty (t : QTrace) (diffOf : DiffOracle) (now : Nat)
    (hact : t.state.flushTimerActive = true) (hpend : t.state.pendingFiles = []) :
    qStep t (QOp.fireTimer diffOf now) =
      { t with state :=
          { t.state with flushTimerActive := false, countdownActive := false } } := by
  simp [qStep, hact, runFlush, hpend]

theorem qStep_fire_nonempty (t : QTrace) (diffOf : DiffOracle) (now : Nat)
    (hact : t.state.flushTimerActive = true) (hpend : t.state.pendingFiles ≠ []) :
    qStep t (QOp.fireTimer diffOf now) =
      { t with
          state :=
            { minIntervalMs := t.state.minIntervalMs
              pendingFiles := []
              lastReviewAt := now
              reviewedDiffHash :=
                (flushFold diffOf t.state.reviewedDiffHash t.state.pendingFiles).1
              flushTimerActive := false
              countdownActive := false }
          curSeg := t.curSeg ++
            ((flushFold diffOf t.state.reviewedDiffHash t.state.pendingFiles).2 ++
              [if batchOf (flushFold diffOf t.state.reviewedDiffHash t.state.pendingFiles).2 = []
                then QEv.empty
                else QEv.ready
                  (batchOf (flushFold diffOf t.state.reviewedDiffHash t.state.pendingFiles).2)]) } := by
  simp [qStep, hact, runFlush, hpend]

theorem qStep_inv (t : QTrace) (op : QOp) (h : QInv t) : QInv (qStep t op) := by
  obtain ⟨h1, h2, h3⟩ := h
  cases op with
  | configure ms => exact ⟨h1, h2, h3⟩
  | enqueue f now =>
    refine ⟨?_, ?_, h3⟩
    · rw [show (qStep t (QOp.enqueue f now)).state = enqueueStep f now t.state from rfl,
        enqueueStep_pending]
      exact setAdd_nodup _ _ h1
    · intro g
      rw [show (qStep t (QOp.enqueue f now)).state = enqueueStep f now t.state from rfl,
        enqueueStep_fp]
      exact h2 g
  | cancelPending => exact ⟨List.nodup_nil, h2, h3⟩
  | resetQueue =>
    refine ⟨List.nodup_nil, fun f => rfl, ?_⟩
    intro seg hseg f
    simp only [qStep, QTrace.segs, List.mem_append, List.mem_singleton] at hseg
    rcases hseg with hseg | hseg
    · exact h3 seg (by simp [QTrace.segs, hseg]) f
    · simp [hseg, fpTrace]
  | fireTimer diffOf now =>
    by_cases hact : t.state.flushTimerActive
    · by_cases hpend : t.state.pendingFiles = []
      · rw [qStep_fire_empty t diffOf now hact hpend]
        exact ⟨h1, h2, fun seg hseg f => h3 seg (by simpa [QTrace.segs] using hseg) f⟩
      · rw [qStep_fire_nonempty t diffOf now hact hpend]
        refine ⟨List.nodup_nil, ?_, ?_⟩
        · intro f
          rcases flushFold_fpTrace_cases diffOf f t.state.pendingFiles
              t.state.reviewedDiffHash with ⟨e1, e2⟩ | ⟨hh, hs, hne, e1, e2⟩
          · show mapLookup (flushFold diffOf t.state.reviewedDiffHash t.state.pendingFiles).1 f = _
            rw [e2, fpTrace_append, fpTrace_append, e1, fpTrace_callback_if]
            simpa using h2 f
          · show mapLookup (flushFold diffOf t.state.reviewedDiffHash t.state.pendingFiles).1 f = _
            rw [e2, fpTrace_append, fpTrace_append, e1, fpTrace_callback_if,
              List.append_nil, List.getLast?_concat]
        · intro seg hseg f
          simp only [QTrace.segs, List.mem_append, List.mem_singleton] at hseg
          rcases hseg with hseg | hseg
          · exact h3 seg (by simp [QTrace.segs, hseg]) f
          · subst hseg
            rw [fpTrace_append, fpTrace_append, fpTrace_callback_if, List.append_nil]
            rcases flushFold_fpTrace_cases diffOf f t.state.pendingFiles
                t.state.reviewedDiffHash with ⟨e1, e2⟩ | ⟨hh, hs, hne, e1, e2⟩
            · rw [e1, List.append_nil]
              exact h3 t.curSeg (by simp [QTrace.segs]) f
            · rw [e1]
              refine List.Chain'.append
                (h3 t.curSeg (by simp [QTrace.segs]) f)
                (List.chain'_singleton hh) ?_
              intro x hx y hy
              simp only [List.head?_cons, Option.mem_def, Option.some.injEq] at hy
              subst hy
              rw [← h2 f] at hx
              intro hxy
              subst hxy
              exact hne hx
    · rw [qStep_fire_inactive t diffOf now (by simpa using hact)]
      exact ⟨h1, h2, h3⟩

theorem qRun_inv (ops : List QOp) : ∀ (t : QTrace), QInv t → QInv (qRun t ops) := by
  induction ops with
  | nil => intro t h; exact h
  | cons op ops ih => intro t h; exact ih (qStep t op) (qStep_inv t op h)

/-! ## Claim theorems about the review queue -/

/-- C1: within one armed session (a reset-delimited segment of any
enqueue/flush operation trace), a file is never included in a dispatched
batch with a diff fingerprint identical to the fingerprint of that file's
previous dispatch: its successive dispatch fingerprints form a chain of
pairwise-distinct neighbours. -/
theorem spec_C1_no_identical_redispatch (ops : List QOp) (f : String) :
    ∀ seg ∈ (qRun initialTrace ops).segs, List.Chain' (· ≠ ·) (fpTrace f seg) := by
  intro seg hseg
  exact (qRun_inv ops initialTrace qInv_initial).2.2 seg hseg f

/-- A concrete diff oracle that always reports the same nonempty diff. -/
def constDiff : DiffOracle := fun _ => .ok "diff-a"

/-- A concrete trace: the same file enqueued and flushed twice with an
unchanged diff inside one armed session. -/
def c1Ops : List QOp :=
  [QOp.enqueue "a.ts" 0, QOp.fireTimer constDiff 0,
   QOp.enqueue "a.ts" 5, QOp.fireTimer constDiff 5]

theorem spec_C1_witness :
    List.Chain' (· ≠ ·) (fpTrace "a.ts" (qRun initialTrace c1Ops).curSeg) :=
  spec_C1_no_identical_redispatch c1Ops "a.ts" (qRun initialTrace c1Ops).curSeg
    (by simp [QTrace.segs])

/-- C2: in every flush, each candidate file is classified by its fetched
diff: empty diff → skipped with fingerprint untouched; fetch failure →
included with fingerprint untouched; unchanged hash → skipped with
fingerprint untouched; new or changed hash → fingerprint updated to that
hash and the file included. -/
theorem spec_C2_flush_classification (diffOf : DiffOracle) (now : Nat)
    (st : QueueState) (f : String) (hnd : st.pendingFiles.Nodup)
    (hf : f ∈ st.pendingFiles) :
    (∀ e, diffOf f = .error e →
      f ∈ batchOf (runFlush diffOf now st).2 ∧
        mapLookup (runFlush diffOf now st).1.reviewedDiffHash f =
          mapLookup st.reviewedDiffHash f) ∧
    (diffOf f = .ok "" →
      f ∉ batchOf (runFlush diffOf now st).2 ∧
        mapLookup (runFlush diffOf now st).1.reviewedDiffHash f =
          mapLookup st.reviewedDiffHash f) ∧
    (∀ d, diffOf f = .ok d → d ≠ "" →
      mapLookup st.reviewedDiffHash f = some (hashDiff d) →
      f ∉ batchOf (runFlush diffOf now st).2 ∧
        mapLookup (runFlush diffOf now st).1.reviewedDiffHash f =
          mapLookup st.reviewedDiffHash f) ∧
    (∀ d, diffOf f = .ok d → d ≠ "" →
      mapLookup st.reviewedDiffHash f ≠ some (hashDiff d) →
      f ∈ batchOf (runFlush diffOf now st).2 ∧
        mapLookup (runFlush diffOf now st).1.reviewedDiffHash f =
          some (hashDiff d)) := by
  have hpend : st.pendingFiles ≠ [] := List.ne_nil_of_mem hf
  rw [runFlush_nonempty diffOf now st hpend]
  obtain ⟨i1, i2, i3, i4⟩ :=
    flushFold_mem_spec diffOf f st.pendingFiles st.reviewedDiffHash hnd hf
  simp only [batchOf_append, batchOf_callback_if, List.append_nil]
  exact ⟨i1, i2, i3, i4⟩

/-- Concrete flush state for the witness: one pending file, no stored
fingerprints. -/
def c2State : QueueState := { initialQueue with pendingFiles := ["a.ts"] }

theorem spec_C2_witness :
    "a.ts" ∈ batchOf (runFlush constDiff 0 c2State).2 ∧
      mapLookup (runFlush constDiff 0 c2State).1.reviewedDiffHash "a.ts" =
        some (hashDiff "diff-a") :=
  (spec_C2_flush_classification constDiff 0 c2State "a.ts"
      (by decide) (by decide)).2.2.2 "diff-a" rfl (by decide) (by decide)

/-- C3: a flush that begins with at least one pending file invokes exactly
one of the batch-ready and batch-empty callbacks — batch-ready with the
duplicate-free filtered batch when it is non-empty, batch-empty otherwise —
and a flush that begins with zero pending files invokes neither. -/
theorem spec_C3_exactly_one_callback (diffOf : DiffOracle) (now : Nat)
    (st : QueueState) (hnd : st.pendingFiles.Nodup) :
    (st.pendingFiles = [] → (runFlush diffOf now st).2 = []) ∧
    (st.pendingFiles ≠ [] →
      (batchOf (flushFold diffOf st.reviewedDiffHash st.pendingFiles).2 ≠ [] →
        (batchOf (flushFold diffOf st.reviewedDiffHash st.pendingFiles).2).Nodup ∧
          callbackEvs (runFlush diffOf now st).2 =
            [QEv.ready (batchOf (flushFold diffOf st.reviewedDiffHash st.pendingFiles).2)]) ∧
      (batchOf (flushFold diffOf st.reviewedDiffHash st.pendingFiles).2 = [] →
        callbackEvs (runFlush diffOf now st).2 = [QEv.empty])) := by
  constructor
  · intro hpend
    rw [runFlush_empty diffOf now st hpend]
  · intro hpend
    rw [runFlush_nonempty diffOf now st hpend]
    constructor
    · intro hb
      refine ⟨((flushFold_batch_sublist diffOf st.pendingFiles
          st.reviewedDiffHash).nodup hnd), ?_⟩
      rw [callbackEvs_append, callbackEvs_flushFold, List.nil_append, if_neg hb]
      rfl
    · intro hb
      rw [callbackEvs_append, callbackEvs_flushFold, List.nil_append, if_pos hb]
      rfl

theorem spec_C3_witness :
    (batchOf (flushFold constDiff c2State.reviewedDiffHash c2State.pendingFiles).2).Nodup ∧
      callbackEvs (runFlush constDiff 0 c2State).2 =
        [QEv.ready (batchOf (flushFold constDiff c2State.reviewedDiffHash
          c2State.pendingFiles).2)] :=
  ((spec_C3_exactly_one_callback constDiff 0 c2State (by decide)).2
    (by decide)).1 (by decide)

/-! ## Countdown behaviour (claim C8) -/

/-- The strictly descending sequence `n, n-1, …, 1`. -/
def descSeq : Nat → List Nat
  | 0 => []
  | n + 1 => (n + 1) :: descSeq n

theorem countdownTicks_eq_descSeq (r : Nat) :
    ∀ fuel, r ≤ fuel → countdownTicks (r + 1) fuel = descSeq r := by
  induction r with
  | zero =>
    intro fuel _
    cases fuel with
    | zero => rfl
    | succ f => simp [countdownTicks, descSeq]
  | succ k ih =>
    intro fuel hf
    cases fuel with
    | zero => omega
    | succ f =>
      have hred : k + 1 + 1 - 1 = k + 1 := by omega
      simp only [countdownTicks, hred]
      rw [if_pos (Nat.succ_pos k), ih f (by omega)]
      rfl

theorem descSeq_chain' : ∀ n, List.Chain' (fun a b => a = b + 1) (descSeq n) := by
  intro n
  induction n with
  | zero => exact List.chain'_nil
  | succ k ih =>
    cases k with
    | zero => simp [descSeq]
    | succ j =>
      rw [show descSeq (j + 1 + 1) = (j + 2) :: (j + 1) :: descSeq j from rfl]
      exact List.Chain'.cons rfl (by simpa [descSeq] using ih)

theorem zero_not_mem_descSeq : ∀ n, 0 ∉ descSeq n := by
  intro n
  induction n with
  | zero => simp [descSeq]
  | succ k ih => simp [descSeq, ih]

/-- C8: whenever a flush is scheduled with a positive computed delay, the
countdown emission sequence starts at `ceil(delay/1000)`, decreases by
exactly one per tick, and stops without ever emitting 0; with computed
delay 0 no countdown callback fires at all. -/
theorem spec_C8_countdown_emissions (now lastReviewAt minIntervalMs : Nat) :
    (0 < computeDelay now lastReviewAt minIntervalMs →
      scheduleCountdown (computeDelay now lastReviewAt minIntervalMs) true =
        descSeq ((computeDelay now lastReviewAt minIntervalMs + 999) / 1000) ∧
      (scheduleCountdown (computeDelay now lastReviewAt minIntervalMs) true).head? =
        some ((computeDelay now lastReviewAt minIntervalMs + 999) / 1000) ∧
      List.Chain' (fun a b => a = b + 1)
        (scheduleCountdown (computeDelay now lastReviewAt minIntervalMs) true) ∧
      0 ∉ scheduleCountdown (computeDelay now lastReviewAt minIntervalMs) true) ∧
    (computeDelay now lastReviewAt minIntervalMs = 0 →
      scheduleCountdown (computeDelay now lastReviewAt minIntervalMs) true = []) := by
  set delay := computeDelay now lastReviewAt minIntervalMs with hdelay
  constructor
  · intro hpos
    obtain ⟨k, hk⟩ : ∃ k, (delay + 999) / 1000 = k + 1 :=
      ⟨(delay + 999) / 1000 - 1, by omega⟩
    have hkle : k ≤ delay / 1000 := by omega
    have hmain : scheduleCountdown delay true = descSeq ((delay + 999) / 1000) := by
      rw [scheduleCountdown, if_pos ⟨hpos, rfl⟩]
      show ((delay + 999) / 1000) ::
        countdownTicks ((delay + 999) / 1000) (delay / 1000) = _
      rw [hk, countdownTicks_eq_descSeq k (delay / 1000) hkle]
      rfl
    refine ⟨hmain, ?_, ?_, ?_⟩
    · rw [hmain, hk]; rfl
    · rw [hmain]; exact descSeq_chain' _
    · rw [hmain]; exact zero_not_mem_descSeq _
  · intro hzero
    simp [scheduleCountdown, hzero]

theorem spec_C8_witness :
    0 < computeDelay 0 0 2500 ∧
      scheduleCountdown (computeDelay 0 0 2500) true = descSeq 3 ∧
      0 ∉ scheduleCountdown (computeDelay 0 0 2500) true :=
  ⟨by decide,
    by
      have h := ((spec_C8_countdown_emissions 0 0 2500).1 (by decide)).1
      rw [h]
      rfl,
    ((spec_C8_countdown_emissions 0 0 2500).1 (by decide)).2.2.2⟩

/-! ## cancelPending behaviour (claim C9) -/

theorem qRun_fire_inactive (fires : List (DiffOracle × Nat)) :
    ∀ (t : QTrace), t.state.flushTimerActive = false →
      qRun t (fires.map fun p => QOp.fireTimer p.1 p.2) = t := by
  induction fires with
  | nil => intro t _; rfl
  | cons p ps ih =>
    intro t hact
    rw [List.map_cons, qRun, qStep_fire_inactive t p.1 p.2 hact]
    exact ih t hact

/-- C9: `cancelPending` discards the pending set and disarms the flush
timer and countdown ticker, while leaving the diff-fingerprint map, the
configured minimum interval, and the dispatch log unchanged; afterwards no
amount of elapsed timer fire never dispatches the file that was enqueued
just before the cancel. -/
theorem spec_C9_cancelPending (st : QueueState) (closed : List (List QEv))
    (cur : List QEv) (f : String) (now : Nat)
    (fires : List (DiffOracle × Nat)) :
    (qStep (qStep ⟨st, closed, cur⟩ (QOp.enqueue f now))
        QOp.cancelPending).state.reviewedDiffHash = st.reviewedDiffHash ∧
    (qStep (qStep ⟨st, closed, cur⟩ (QOp.enqueue f now))
        QOp.cancelPending).state.minIntervalMs = st.minIntervalMs ∧
    (qStep (qStep ⟨st, closed, cur⟩ (QOp.enqueue f now))
        QOp.cancelPending).state.lastReviewAt = st.lastReviewAt ∧
    (qStep (qStep ⟨st, closed, cur⟩ (QOp.enqueue f now))
        QOp.cancelPending).state.pendingFiles = [] ∧
    (qStep (qStep ⟨st, closed, cur⟩ (QOp.enqueue f now))
        QOp.cancelPending).state.flushTimerActive = false ∧
    (qStep (qStep ⟨st, closed, cur⟩ (QOp.enqueue f now))
        QOp.cancelPending).closedSegs = closed ∧
    (qStep (qStep ⟨st, closed, cur⟩ (QOp.enqueue f now))
        QOp.cancelPending).curSeg = cur ∧
    qRun (qStep (qStep ⟨st, closed, cur⟩ (QOp.enqueue f now)) QOp.cancelPending)
      (fires.map fun p => QOp.fireTimer p.1 p.2) =
      qStep (qStep ⟨st, closed, cur⟩ (QOp.enqueue f now)) QOp.cancelPending := by
  refine ⟨?_, ?_, ?_, rfl, rfl, rfl, rfl, ?_⟩
  · show (cancelStep (enqueueStep f now st)).reviewedDiffHash = st.reviewedDiffHash
    rw [show (cancelStep (enqueueStep f now st)).reviewedDiffHash =
      (enqueueStep f now st).reviewedDiffHash from rfl, enqueueStep_fp]
  · show (cancelStep (enqueueStep f now st)).minIntervalMs = st.minIntervalMs
    rw [show (cancelStep (enqueueStep f now st)).minIntervalMs =
      (enqueueStep f now st).minIntervalMs from rfl, enqueueStep_minInterval]
  · show (cancelStep (enqueueStep f now st)).lastReviewAt = st.lastReviewAt
    rw [show (cancelStep (enqueueStep f now st)).lastReviewAt =
      (enqueueStep f now st).lastReviewAt from rfl, enqueueStep_lastReviewAt]
  · exact qRun_fire_inactive fires _ rfl

/-!
## JSON model for the response parser of `reviewEngine.ts`

`parseResponse` pipes the model output through `trim`, a code-fence
stripping regex, a bracket-span regex and `JSON.parse`.  `JSON.parse` is a
host builtin; it is embedded here as a recursive-descent parser over the
code points of the input.  Numbers are modelled as exact rationals:
`JSON.parse` returns binary doubles, but every numeral evaluated here is a
short decimal that a double round-trips exactly, so the numeral's rational
value is the faithful model of the parsed number. -/

/-- JSON values as produced by `JSON.parse`. -/
inductive JVal where
  | jnull
  | jbool (b : Bool)
  | jnum (n : ℚ)
  | jstr (s : String)
  | jarr (elems : List JVal)
  | jobj (fields : List (String × JVal))

/-- JSON insignificant whitespace (RFC 8259: space, tab, LF, CR). -/
def isJsonWs (c : Char) : Bool :=
  c = ' ' || c = Char.ofNat 9 || c = Char.ofNat 10 || c = Char.ofNat 13

/-- Value of one hexadecimal digit. -/
def hexVal (c : Char) : Option Nat :=
  if '0' ≤ c ∧ c ≤ '9' then some (c.toNat - 48)
  else if 'a' ≤ c ∧ c ≤ 'f' then some (c.toNat - 87)
  else if 'A' ≤ c ∧ c ≤ 'F' then some (c.toNat - 55)
  else none

/-- Single-character JSON string escapes. -/
def escChar (e : Char) : Option Char :=
  if e = '"' then some '"'
  else if e = '\\' then some '\\'
  else if e = '/' then some '/'
  else if e = 'b' then some (Char.ofNat 8)
  else if e = 'f' then some (Char.ofNat 12)
  else if e = 'n' then some (Char.ofNat 10)
  else if e = 'r' then some (Char.ofNat 13)
  else if e = 't' then some (Char.ofNat 9)
  else none

/-- Parses a JSON string body (the opening quote already consumed),
returning the decoded content and the input after the closing quote. -/
def parseJString : List Char → Option (List Char × List Char)
  | [] => none
  | c :: rest =>
    if c = '"' then some ([], rest)
    else if c = '\\' then
      match rest with
      | [] => none
      | e :: rest2 =>
        if e = 'u' then
          match rest2 with
          | h1 :: h2 :: h3 :: h4 :: rest3 =>
            match hexVal h1, hexVal h2, hexVal h3, hexVal h4 with
            | some a, some b, some c2, some d =>
              match parseJString rest3 with
              | some (s, r) => some (Char.ofNat (((a * 16 + b) * 16 + c2) * 16 + d) :: s, r)
              | none => none
            | _, _, _, _ => none
          | _ => none
        else
          match escChar e with
          | some ec =>
            match parseJString rest2 with
            | some (s, r) => some (ec :: s, r)
            | none => none
          | none => none
    else
      match parseJString rest with
      | some (s, r) => some (c :: s, r)
      | none => none

/-- Digit-run accumulator of the number grammar. -/
def digitsToNat (ds : List Char) : Nat :=
  ds.foldl (fun a c => a * 10 + (c.toNat - 48)) 0

/-- Parses a non-empty digit run, returning its value, its digit count and
the rest of the input. -/
def parseDigits (l : List Char) : Option (Nat × Nat × List Char) :=
  let p := l.span (fun c => c.isDigit)
  if p.1 = [] then none else some (digitsToNat p.1, p.1.length, p.2)

/-- Parses the optional fraction part of a JSON numeral (a decimal point
followed by a digit run). -/
def parseFracPart (l : List Char) : Option (ℚ × List Char) :=
  if l.head? = some '.' then
    match parseDigits (l.drop 1) with
    | some (v, k, r) => some ((v : ℚ) / 10 ^ k, r)
    | none => none
  else some (0, l)

/-- Parses the optional exponent part of a JSON numeral (`e` or `E`, an
optional sign, a digit run). -/
def parseExpPart (l : List Char) : Option (Int × List Char) :=
  if l.head? = some 'e' ∨ l.head? = some 'E' then
    let l1 := l.drop 1
    if l1.head? = some '-' then
      match parseDigits (l1.drop 1) with
      | some (v, _, r) => some (-(v : Int), r)
      | none => none
    else
      let l2 := if l1.head? = some '+' then l1.drop 1 else l1
      match parseDigits l2 with
      | some (v, _, r) => some ((v : Int), r)
      | none => none
  else some (0, l)

/-- Parses an unsigned JSON numeral (integer digits, optional fraction,
optional exponent) to its exact rational value. -/
def parseJNumPos (l : List Char) : Option (ℚ × List Char) :=
  match parseDigits l with
  | none => none
  | some (ip, _, r1) =>
    match parseFracPart r1 with
    | none => none
    | some (fv, r2) =>
      match parseExpPart r2 with
      | none => none
      | some (e, r3) => some (((ip : ℚ) + fv) * 10 ^ e, r3)

/-- Parses a JSON numeral: an optional minus sign, then an unsigned
numeral. -/
def parseJNum (l : List Char) : Option (ℚ × List Char) :=
  if l.head? = some '-' then
    match parseJNumPos (l.drop 1) with
    | some (q, r) => some (-q, r)
    | none => none
  else parseJNumPos l

mutual

/-- Parses one JSON value; `fuel` bounds the recursion depth and the
number of container elements. -/
def parseJVal : Nat → List Char → Option (JVal × List Char)
  | 0, _ => none
  | fuel + 1, l =>
    match l.dropWhile isJsonWs with
    | [] => none
    | c :: rest =>
      if c = '"' then
        match parseJString rest with
        | some (s, r) => some (JVal.jstr (String.mk s), r)
        | none => none
      else if c = '[' then
        match (rest.dropWhile isJsonWs) with
        | ']' :: r => some (JVal.jarr [], r)
        | _ =>
          match parseJArrElems fuel rest with
          | some (vs, r) => some (JVal.jarr vs, r)
          | none => none
      else if c = '{' then
        match (rest.dropWhile isJsonWs) with
        | '}' :: r => some (JVal.jobj [], r)
        | _ =>
          match parseJObjFields fuel rest with
          | some (fs, r) => some (JVal.jobj fs, r)
          | none => none
      else if c = 't' then
        match rest with
        | 'r' :: 'u' :: 'e' :: r => some (JVal.jbool true, r)
        | _ => none
      else if c = 'f' then
        match rest with
        | 'a' :: 'l' :: 's' :: 'e' :: r => some (JVal.jbool false, r)
        | _ => none
      else if c = 'n' then
        match rest with
        | 'u' :: 'l' :: 'l' :: r => some (JVal.jnull, r)
        | _ => none
      else
        match parseJNum (c :: rest) with
        | some (n, r) => some (JVal.jnum n, r)
        | none => none

/-- Parses the comma-separated element list of a non-empty JSON array,
up to and including the closing bracket. -/
def parseJArrElems : Nat → List Char → Option (List JVal × List Char)
  | 0, _ => none
  | fuel + 1, l =>
    match parseJVal fuel l with
    | some (v, r) =>
      match r.dropWhile isJsonWs with
      | ',' :: r2 =>
        match parseJArrElems fuel r2 with
        | some (vs, r3) => some (v :: vs, r3)
        | none => none
      | ']' :: r2 => some ([v], r2)
      | _ => none
    | none => none

/-- Parses the comma-separated member list of a non-empty JSON object,
up to and including the closing brace. -/
def parseJObjFields : Nat → List Char → Option (List (String × JVal) × List Char)
  | 0, _ => none
  | fuel + 1, l =>
    match l.dropWhile isJsonWs with
    | '"' :: rest =>
      match parseJString rest with
      | some (k, r1) =>
        match r1.dropWhile isJsonWs with
        | ':' :: r2 =>
          match parseJVal fuel r2 with
          | some (v, r3) =>
            match r3.dropWhile isJsonWs with
            | ',' :: r4 =>
              match parseJObjFields fuel r4 with
              | some (fs, r5) => some ((String.mk k, v) :: fs, r5)
              | none => none
            | '}' :: r4 => some ([(String.mk k, v)], r4)
            | _ => none
          | none => none
        | _ => none
      | none => none
    | _ => none

end

/-- `JSON.parse`: parse one value and require only whitespace to remain. -/
def jsonParseChars (l : List Char) : Option JVal :=
  match parseJVal (l.length + 1) l with
  | some (v, rest) => if rest.dropWhile isJsonWs = [] then some v else none
  | none => none

/-! ## The response-text pipeline of `parseResponse` -/

/-- JavaScript's `\s` / `String.prototype.trim` whitespace, restricted to
the characters that can occur here (ASCII whitespace). -/
def isJsWs (c : Char) : Bool :=
  c = ' ' || c = Char.ofNat 9 || c = Char.ofNat 10 || c = Char.ofNat 13 ||
    c = Char.ofNat 11 || c = Char.ofNat 12

/-- `String.prototype.trim`. -/
def jsTrim (l : List Char) : List Char :=
  ((l.dropWhile isJsWs).reverse.dropWhile isJsWs).reverse

/-- Splits at the first occurrence of three consecutive backticks,
returning the text before it and the text after it. -/
def splitAtTriple : List Char → Option (List Char × List Char)
  | [] => none
  | c :: rest =>
    if c = '`' then
      match rest with
      | '`' :: '`' :: r => some ([], r)
      | _ =>
        match splitAtTriple rest with
        | some (b, a) => some (c :: b, a)
        | none => none
    else
      match splitAtTriple rest with
      | some (b, a) => some (c :: b, a)
      | none => none

/-- The capture group of the fence-stripping regex
`/\x60\x60\x60(?:json)?\s*([\s\S]*?)\x60\x60\x60/` of `parseResponse`
(line 381 of `reviewEngine.ts`): the text between the first fence opener
(after an optional `json` tag and whitespace) and the next fence closer;
`none` when the regex does not match. -/
def fenceExtract (l : List Char) : Option (List Char) :=
  match splitAtTriple l with
  | none => none
  | some (_, afterOpen) =>
    let afterJson :=
      if afterOpen.take 4 = ['j', 's', 'o', 'n'] then afterOpen.drop 4 else afterOpen
    let afterWs := afterJson.dropWhile isJsWs
    match splitAtTriple afterWs with
    | none => none
    | some (cap, _) => some cap

/-- The match of the array-extraction regex `/\[[\s\S]*\]/` of
`parseResponse` (line 387): the span from the first `[` to the last `]`,
when such a span exists. -/
def arraySpan (l : List Char) : Option (List Char) :=
  let t := l.dropWhile (fun c => ¬c = '[')
  if t = [] then none
  else
    let r := t.reverse.dropWhile (fun c => ¬c = ']')
    if r = [] then none else some r.reverse

/-- Modelled from the spec: `truncateText` lives in `utils.ts`, which is
not part of the provided sources; per the specification, titles and
explanations are 'truncated to 80 characters' / 'truncated to 500
characters', so `truncateText s n` keeps the first `n` characters. -/
def truncateText (s : String) (maxChars : Nat) : String :=
  String.mk (s.data.take maxChars)

/-- JavaScript's `Math.round`: the nearest integer, with half-ties rounded
toward positive infinity — the floor of x + 1/2. -/
def jsRound (q : ℚ) : Int := ⌊q + 1 / 2⌋

/-- `ReviewIssue` of `types.ts` as consumed by the extension: risk tier,
file path, 1-based line, title, explanation. -/
structure ReviewIssue where
  tier : String
  file : String
  line : Int
  title : String
  explanation : String
  deriving DecidableEq

/-- JavaScript property access on a parsed JSON object (`JSON.parse`
keeps the last of duplicate keys). -/
def getField (fs : List (String × JVal)) (k : String) : Option JVal :=
  ((fs.filter (fun p => p.1 = k)).getLast?).map (fun p => p.2)

/-- `isValidIssue` of `reviewEngine.ts` (lines 410–420): tier is one of
the three risk strings, line is a number, title and explanation are
strings. -/
def isValidIssue (v : JVal) : Bool :=
  match v with
  | JVal.jobj fs =>
    (match getField fs "tier" with
     | some (JVal.jstr t) => t = "high" || t = "medium" || t = "low"
     | _ => false) &&
    (match getField fs "line" with
     | some (JVal.jnum _) => true
     | _ => false) &&
    (match getField fs "title" with
     | some (JVal.jstr _) => true
     | _ => false) &&
    (match getField fs "explanation" with
     | some (JVal.jstr _) => true
     | _ => false)
  | _ => false

/-- `normalizeIssue` of `reviewEngine.ts` (lines 425–433): tier passed
through, file defaulted to `""` when absent, line rounded (`Math.round`,
half-ties toward positive infinity) and floored at 1, title truncated to 80 and
explanation to 500 characters.  Only ever applied after `isValidIssue`;
the defaults for missing required fields are unreachable. -/
def normalizeIssue (v : JVal) : ReviewIssue :=
  match v with
  | JVal.jobj fs =>
    { tier := (match getField fs "tier" with | some (JVal.jstr t) => t | _ => "")
      file := (match getField fs "file" with | some (JVal.jstr f) => f | _ => "")
      line := max 1 (match getField fs "line" with
        | some (JVal.jnum n) => jsRound n | _ => 0)
      title := truncateText
        (match getField fs "title" with | some (JVal.jstr t) => t | _ => "") 80
      explanation := truncateText
        (match getField fs "explanation" with | some (JVal.jstr e) => e | _ => "") 500 }
  | _ => { tier := "", file := "", line := 1, title := "", explanation := "" }

/-- `parseResponse` of `reviewEngine.ts` (lines 377–405): trim, strip a
markdown code fence if present, extract the `[`…`]` span, `JSON.parse` it,
keep the validly-shaped elements and normalize them.  Every failure path
returns the empty list. -/
def parseResponse (responseText : String) : List ReviewIssue :=
  let t0 := jsTrim responseText.data
  let text :=
    match fenceExtract t0 with
    | some cap => jsTrim cap
    | none => t0
  match arraySpan text with
  | none => []
  | some span =>
    match jsonParseChars span with
    | some (JVal.jarr items) => (items.filter (fun v => isValidIssue v)).map normalizeIssue
    | some _ => []
    | none => []

/-! ## A JSON serializer for valid issue objects (claim C7)

The serializer plays the role of `JSON.stringify` on the round-trip side
of the claim; it emits RFC 8259 JSON with `JSON.stringify`'s string
escaping. -/

/-- The risk tiers a valid issue may carry. -/
inductive Tier where
  | high
  | medium
  | low
  deriving DecidableEq

/-- The wire string of a tier. -/
def Tier.str : Tier → String
  | Tier.high => "high"
  | Tier.medium => "medium"
  | Tier.low => "low"

/-- A finite decimal `m / 10 ^ k` — the numeric values the serializer can
emit for a `line` property (`JSON.stringify` prints every finite number as
such a decimal). -/
structure DecNum where
  m : Int
  k : Nat
  deriving DecidableEq

/-- The rational value of a finite decimal. -/
def DecNum.val (d : DecNum) : ℚ := (d.m : ℚ) / 10 ^ d.k

/-- A valid issue object in the sense of the claim: tier one of the three
risk strings, numeric line given as a finite decimal, string title and
explanation, and an optional file path (`JSON.stringify` omits absent
properties). -/
structure SpecIssue where
  tier : Tier
  file : Option String
  line : DecNum
  title : String
  explanation : String

/-- Lower-case hexadecimal digit. -/
def hexDigit (n : Nat) : Char :=
  if n < 10 then Char.ofNat (48 + n) else Char.ofNat (87 + n)

/-- `JSON.stringify`'s escaping of one string character. -/
def escapeChar (c : Char) : List Char :=
  if c = '"' then ['\\', '"']
  else if c = '\\' then ['\\', '\\']
  else if c = Char.ofNat 8 then ['\\', 'b']
  else if c = Char.ofNat 9 then ['\\', 't']
  else if c = Char.ofNat 10 then ['\\', 'n']
  else if c = Char.ofNat 12 then ['\\', 'f']
  else if c = Char.ofNat 13 then ['\\', 'r']
  else if c.toNat < 32 then
    ['\\', 'u', '0', '0', hexDigit (c.toNat / 16), hexDigit (c.toNat % 16)]
  else [c]

/-- Escaped character data of a string literal. -/
def escString : List Char → List Char
  | [] => []
  | c :: cs => escapeChar c ++ escString cs

/-- A JSON string literal. -/
def strLit (s : String) : List Char :=
  '"' :: escString s.data ++ ['"']

/-- Decimal digits of a natural number. -/
def natLit (n : Nat) : List Char :=
  if n = 0 then ['0']
  else (Nat.digits 10 n).reverse.map (fun d => Char.ofNat (48 + d))

/-- The `k` low decimal digits of `n`, zero-padded to width `k`, most
significant first. -/
def fracDigits : Nat → Nat → List Char
  | 0, _ => []
  | j + 1, n => fracDigits j (n / 10) ++ [Char.ofNat (48 + n % 10)]

/-- A JSON number literal for the finite decimal `m / 10 ^ k`: sign,
integer digits and — when `k` is positive — a decimal point and the `k`
fraction digits. -/
def numLit (d : DecNum) : List Char :=
  (if d.m < 0 then ['-'] else []) ++
    (if d.k = 0 then natLit d.m.natAbs
     else natLit (d.m.natAbs / 10 ^ d.k) ++ '.' :: fracDigits d.k d.m.natAbs)

/-- One serialized issue object, fields in schema order, the `file`
property omitted when absent. -/
def issueLit (i : SpecIssue) : List Char :=
  '{' :: (strLit "tier" ++ ':' :: strLit i.tier.str) ++
    (match i.file with
     | some f => ',' :: strLit "file" ++ ':' :: strLit f
     | none => []) ++
    ',' :: (strLit "line" ++ ':' :: numLit i.line) ++
    ',' :: (strLit "title" ++ ':' :: strLit i.title) ++
    ',' :: (strLit "explanation" ++ ':' :: strLit i.explanation) ++ ['}']

/-- Comma-separated serialized issues. -/
def issuesLitAux : List SpecIssue → List Char
  | [] => []
  | [i] => issueLit i
  | i :: rest => issueLit i ++ ',' :: issuesLitAux rest

/-- `JSON.stringify` of a list of valid issue objects. -/
def stringifyIssues (l : List SpecIssue) : String :=
  String.mk ('[' :: issuesLitAux l ++ [']'])

/-- The normalized issue the claim expects back for a valid input issue:
tier preserved, line rounded (half-ties toward positive infinity, as
`Math.round`) and floored at 1, title truncated to 80, explanation to
500, file defaulted to the empty string when absent. -/
def expectedIssue (i : SpecIssue) : ReviewIssue :=
  { tier := i.tier.str
    file := (match i.file with | some f => f | none => "")
    line := max 1 (jsRound i.line.val)
    title := truncateText i.title 80
    explanation := truncateText i.explanation 500 }

/-! ## Round-trip lemmas: strings -/

theorem hexVal_hexDigit (n : Nat) (h : n < 16) : hexVal (hexDigit n) = some n := by
  interval_cases n <;> rfl

theorem parseJString_escString (s : List Char) :
    ∀ rest, parseJString (escString s ++ '"' :: rest) = some (s, rest) := by
  induction s with
  | nil =>
    intro rest
    rw [parseJString.eq_def]
    simp [escString]
  | cons c cs ih =>
    intro rest
    show parseJString (escapeChar c ++ escString cs ++ '"' :: rest) = _
    by_cases h1 : c = '"'
    · subst h1; rw [parseJString.eq_def]; simp +decide [escapeChar, escChar, ih]
    · by_cases h2 : c = '\\'
      · subst h2; rw [parseJString.eq_def]; simp +decide [escapeChar, escChar, ih]
      · by_cases h3 : c = Char.ofNat 8
        · subst h3; rw [parseJString.eq_def]; simp +decide [escapeChar, escChar, ih]
        · by_cases h4 : c = Char.ofNat 9
          · subst h4; rw [parseJString.eq_def]; simp +decide [escapeChar, escChar, ih]
          · by_cases h5 : c = Char.ofNat 10
            · subst h5; rw [parseJString.eq_def]; simp +decide [escapeChar, escChar, ih]
            · by_cases h6 : c = Char.ofNat 12
              · subst h6; rw [parseJString.eq_def]; simp +decide [escapeChar, escChar, ih]
              · by_cases h7 : c = Char.ofNat 13
                · subst h7; rw [parseJString.eq_def]; simp +decide [escapeChar, escChar, ih]
                · by_cases h8 : c.toNat < 32
                  · -- generic control character: \u00XY escape
                    have hdiv : c.toNat / 16 < 16 := by omega
                    have hmod : c.toNat % 16 < 16 := by omega
                    simp only [escapeChar, if_neg h1, if_neg h2, if_neg h3, if_neg h4,
                      if_neg h5, if_neg h6, if_neg h7, if_pos h8, List.cons_append,
                      List.nil_append]
                    have h0 : hexVal '0' = some 0 := rfl
                    rw [parseJString.eq_def]
                    simp +decide [h0, hexVal_hexDigit _ hdiv, hexVal_hexDigit _ hmod, ih]
                    have hcode : c.toNat / 16 * 16 + c.toNat % 16 = c.toNat := by omega
                    rw [hcode, Char.ofNat_toNat]
                  · -- plain character, copied literally
                    simp only [escapeChar, if_neg h1, if_neg h2, if_neg h3, if_neg h4,
                      if_neg h5, if_neg h6, if_neg h7, if_neg h8, List.singleton_append]
                    rw [parseJString.eq_def]
                    simp [h1, h2, ih]

/-! ## Round-trip lemmas: numbers -/

theorem digitChar_toNat (d : Nat) (h : d < 10) :
    (Char.ofNat (48 + d)).toNat = 48 + d := by
  interval_cases d <;> rfl

theorem digitChar_isDigit (d : Nat) (h : d < 10) :
    (Char.ofNat (48 + d)).isDigit = true := by
  interval_cases d <;> rfl

theorem natLit_ne_nil (n : Nat) : natLit n ≠ [] := by
  unfold natLit
  by_cases h : n = 0
  · simp [h]
  · simp [h, Nat.digits_ne_nil_iff_ne_zero]

theorem natLit_all_digits (n : Nat) : ∀ c ∈ natLit n, c.isDigit = true := by
  intro c hc
  unfold natLit at hc
  by_cases h : n = 0
  · simp [h] at hc
    simp [hc]
  · rw [if_neg h] at hc
    simp only [List.mem_map, List.mem_reverse] at hc
    obtain ⟨d, hd, rfl⟩ := hc
    exact digitChar_isDigit d (Nat.digits_lt_base (by norm_num) hd)

theorem span_digits_append (ds rest : List Char)
    (hds : ∀ c ∈ ds, c.isDigit = true)
    (hrest : ∀ c, rest.head? = some c → c.isDigit = false) :
    (ds ++ rest).span (fun c => c.isDigit) = (ds, rest) := by
  rw [List.span_eq_take_drop]
  induction ds with
  | nil =>
    cases rest with
    | nil => rfl
    | cons r rs =>
      have hr : r.isDigit = false := hrest r rfl
      simp [List.takeWhile_cons, List.dropWhile_cons, hr]
  | cons d ds ih =>
    have hd : d.isDigit = true := hds d (List.mem_cons_self d ds)
    have ih' := ih (fun c hc => hds c (List.mem_cons_of_mem d hc))
    rw [Prod.mk.injEq] at ih'
    obtain ⟨iht, ihd⟩ := ih'
    simp [List.takeWhile_cons, List.dropWhile_cons, hd, iht, ihd]

theorem foldl_digits_rev (ds : List Nat) (hds : ∀ d ∈ ds, d < 10) :
    ∀ a : Nat,
      ((ds.reverse.map fun d => Char.ofNat (48 + d)).foldl
        (fun acc c => acc * 10 + (c.toNat - 48)) a) =
        a * 10 ^ ds.length + Nat.ofDigits 10 ds := by
  induction ds with
  | nil => intro a; simp
  | cons d tl ih =>
    intro a
    have hd : d < 10 := hds d (List.mem_cons_self d tl)
    have ih' := ih (fun x hx => hds x (List.mem_cons_of_mem d hx))
    simp only [List.reverse_cons, List.map_append, List.foldl_append, ih', List.map_cons,
      List.map_nil, List.foldl_cons, List.foldl_nil, digitChar_toNat d hd,
      Nat.ofDigits_cons, List.length_cons]
    have : 48 + d - 48 = d := by omega
    rw [this]
    ring

theorem digitsToNat_natLit (n : Nat) : digitsToNat (natLit n) = n := by
  by_cases h : n = 0
  · subst h; rfl
  · unfold natLit digitsToNat
    rw [if_neg h,
      foldl_digits_rev (Nat.digits 10 n)
        (fun d hd => Nat.digits_lt_base (by norm_num) hd) 0]
    simp [Nat.ofDigits_digits]

theorem fracDigits_length (k n : Nat) : (fracDigits k n).length = k := by
  induction k generalizing n with
  | zero => rfl
  | succ j ih => simp [fracDigits, ih]

theorem fracDigits_all_digits (k n : Nat) :
    ∀ c ∈ fracDigits k n, c.isDigit = true := by
  induction k generalizing n with
  | zero => intro c hc; simp [fracDigits] at hc
  | succ j ih =>
    intro c hc
    simp only [fracDigits, List.mem_append, List.mem_singleton] at hc
    rcases hc with hc | rfl
    · exact ih (n / 10) c hc
    · exact digitChar_isDigit (n % 10) (Nat.mod_lt n (by norm_num))

theorem digitsToNat_fracDigits (k n : Nat) :
    digitsToNat (fracDigits k n) = n % 10 ^ k := by
  induction k generalizing n with
  | zero => simp [fracDigits, digitsToNat, Nat.mod_one]
  | succ j ih =>
    have hfold : digitsToNat (fracDigits j (n / 10) ++ [Char.ofNat (48 + n % 10)]) =
        digitsToNat (fracDigits j (n / 10)) * 10 +
          ((Char.ofNat (48 + n % 10)).toNat - 48) := by
      simp [digitsToNat, List.foldl_append]
    rw [show fracDigits (j + 1) n =
        fracDigits j (n / 10) ++ [Char.ofNat (48 + n % 10)] from rfl, hfold,
      ih (n / 10), digitChar_toNat (n % 10) (Nat.mod_lt n (by norm_num))]
    have hsplit : n % 10 ^ (j + 1) = n % 10 + 10 * (n / 10 % 10 ^ j) := by
      rw [pow_succ, mul_comm (10 ^ j) 10]
      exact Nat.mod_mul
    have hd : 48 + n % 10 - 48 = n % 10 := by omega
    rw [hd, hsplit]
    ring

theorem head_cons_not_digit (a : Char) (ha : a.isDigit = false) (X : List Char) :
    ∀ c, ((a :: X).head? = some c) → c.isDigit = false := by
  intro c hc
  simp only [List.head?_cons, Option.some.injEq] at hc
  rw [← hc]
  exact ha

theorem parseDigits_append (ds rest : List Char) (hne : ds ≠ [])
    (hds : ∀ c ∈ ds, c.isDigit = true)
    (hrest : ∀ c, rest.head? = some c → c.isDigit = false) :
    parseDigits (ds ++ rest) = some (digitsToNat ds, ds.length, rest) := by
  simp only [parseDigits]
  rw [span_digits_append ds rest hds hrest]
  simp [hne]

theorem parseFracPart_skip (l : List Char)
    (h : ∀ c, l.head? = some c → ¬c = '.') :
    parseFracPart l = some (0, l) := by
  unfold parseFracPart
  rw [if_neg (fun hc => h '.' hc rfl)]

theorem parseFracPart_dot (ds rest : List Char) (hne : ds ≠ [])
    (hds : ∀ c ∈ ds, c.isDigit = true)
    (hrest : ∀ c, rest.head? = some c → c.isDigit = false) :
    parseFracPart ('.' :: (ds ++ rest)) =
      some ((digitsToNat ds : ℚ) / 10 ^ ds.length, rest) := by
  unfold parseFracPart
  rw [if_pos (by simp)]
  simp only [List.drop_succ_cons, List.drop_zero]
  rw [parseDigits_append ds rest hne hds hrest]

theorem parseExpPart_skip (l : List Char)
    (h : ∀ c, l.head? = some c → ¬c = 'e' ∧ ¬c = 'E') :
    parseExpPart l = some (0, l) := by
  unfold parseExpPart
  rw [if_neg]
  rintro (hc | hc)
  · exact (h 'e' hc).1 rfl
  · exact (h 'E' hc).2 rfl

theorem natLit_append_head_ne_minus (n : Nat) (X : List Char) :
    (natLit n ++ X).head? ≠ some '-' := by
  obtain ⟨c, cs, hc⟩ : ∃ c cs, natLit n = c :: cs := by
    cases hnl : natLit n with
    | nil => exact absurd hnl (natLit_ne_nil _)
    | cons c cs => exact ⟨c, cs, rfl⟩
  have hcd : c.isDigit = true :=
    natLit_all_digits _ c (by rw [hc]; exact List.mem_cons_self c cs)
  rw [hc]
  intro hh
  simp only [List.cons_append, List.head?_cons, Option.some.injEq] at hh
  rw [hh] at hcd
  exact absurd hcd (by decide)

theorem parseJNumPos_core (a k : Nat) (rest : List Char)
    (hrest : ∀ c, rest.head? = some c →
      c.isDigit = false ∧ ¬c = '.' ∧ ¬c = 'e' ∧ ¬c = 'E') :
    parseJNumPos ((if k = 0 then natLit a
        else natLit (a / 10 ^ k) ++ '.' :: fracDigits k a) ++ rest) =
      some ((a : ℚ) / 10 ^ k, rest) := by
  have hrd : ∀ c, rest.head? = some c → c.isDigit = false :=
    fun c hc => (hrest c hc).1
  have hexp : parseExpPart rest = some (0, rest) :=
    parseExpPart_skip rest (fun c hc => ⟨(hrest c hc).2.2.1, (hrest c hc).2.2.2⟩)
  have hfrac : parseFracPart rest = some (0, rest) :=
    parseFracPart_skip rest (fun c hc => (hrest c hc).2.1)
  by_cases hk : k = 0
  · subst hk
    rw [if_pos rfl]
    have h1 : parseDigits (natLit a ++ rest) =
        some (digitsToNat (natLit a), (natLit a).length, rest) :=
      parseDigits_append (natLit a) rest (natLit_ne_nil a) (natLit_all_digits a) hrd
    simp only [parseJNumPos, h1, digitsToNat_natLit, hfrac, hexp]
    norm_num
  · rw [if_neg hk]
    have hfe : fracDigits k a ≠ [] := by
      intro h
      have hl := fracDigits_length k a
      rw [h] at hl
      simp at hl
      exact hk hl.symm
    have hshape : (natLit (a / 10 ^ k) ++ '.' :: fracDigits k a) ++ rest =
        natLit (a / 10 ^ k) ++ ('.' :: (fracDigits k a ++ rest)) := by
      simp
    have h1 : parseDigits (natLit (a / 10 ^ k) ++ ('.' :: (fracDigits k a ++ rest))) =
        some (digitsToNat (natLit (a / 10 ^ k)), (natLit (a / 10 ^ k)).length,
          '.' :: (fracDigits k a ++ rest)) :=
      parseDigits_append _ _ (natLit_ne_nil _) (natLit_all_digits _)
        (head_cons_not_digit '.' (by decide) _)
    have h2 : parseFracPart ('.' :: (fracDigits k a ++ rest)) =
        some ((digitsToNat (fracDigits k a) : ℚ) / 10 ^ (fracDigits k a).length,
          rest) :=
      parseFracPart_dot (fracDigits k a) rest hfe (fracDigits_all_digits k a) hrd
    rw [hshape]
    simp only [parseJNumPos, h1, digitsToNat_natLit, h2, digitsToNat_fracDigits,
      fracDigits_length, hexp]
    have hq : (10 : ℚ) ^ k * ((a / 10 ^ k : Nat) : ℚ) + ((a % 10 ^ k : Nat) : ℚ) =
        (a : ℚ) := by
      exact_mod_cast Nat.div_add_mod a (10 ^ k)
    have h10 : ((10 : ℚ)) ^ k ≠ 0 := by positivity
    simp only [zpow_zero, mul_one, Option.some.injEq, Prod.mk.injEq, and_true]
    field_simp
    linear_combination hq

theorem parseJNum_numLit (d : DecNum) (rest : List Char)
    (hrest : ∀ c, rest.head? = some c →
      c.isDigit = false ∧ ¬c = '.' ∧ ¬c = 'e' ∧ ¬c = 'E') :
    parseJNum (numLit d ++ rest) = some (DecNum.val d, rest) := by
  have hcore := parseJNumPos_core d.m.natAbs d.k rest hrest
  by_cases hm : d.m < 0
  · have hshape : numLit d ++ rest = '-' ::
        ((if d.k = 0 then natLit d.m.natAbs
          else natLit (d.m.natAbs / 10 ^ d.k) ++
            '.' :: fracDigits d.k d.m.natAbs) ++ rest) := by
      simp [numLit, if_pos hm]
    rw [hshape, parseJNum]
    simp only [List.head?_cons]
    rw [if_pos trivial]
    simp only [List.drop_succ_cons, List.drop_zero, hcore]
    have hv : -((d.m.natAbs : ℚ) / 10 ^ d.k) = DecNum.val d := by
      unfold DecNum.val
      have h1 : ((d.m.natAbs : Nat) : Int) = -d.m := by omega
      have hb : ((d.m.natAbs : Nat) : ℚ) = -(d.m : ℚ) := by
        rw [← Int.cast_natCast (R := ℚ), h1]
        push_cast
        ring
      rw [hb]
      ring
    rw [hv]
  · have hshape : numLit d ++ rest =
        (if d.k = 0 then natLit d.m.natAbs
          else natLit (d.m.natAbs / 10 ^ d.k) ++
            '.' :: fracDigits d.k d.m.natAbs) ++ rest := by
      simp [numLit, hm]
    have hhead : ((if d.k = 0 then natLit d.m.natAbs
        else natLit (d.m.natAbs / 10 ^ d.k) ++
          '.' :: fracDigits d.k d.m.natAbs) ++ rest).head? ≠ some '-' := by
      by_cases hk : d.k = 0
      · rw [if_pos hk]
        exact natLit_append_head_ne_minus _ _
      · rw [if_neg hk, List.append_assoc]
        exact natLit_append_head_ne_minus _ _
    rw [hshape, parseJNum, if_neg hhead, hcore]
    have hv : ((d.m.natAbs : Nat) : ℚ) / 10 ^ d.k = DecNum.val d := by
      unfold DecNum.val
      have hb : ((d.m.natAbs : Nat) : ℚ) = (d.m : ℚ) := by
        rw [← Int.cast_natCast (R := ℚ), Int.natAbs_of_nonneg (by omega : 0 ≤ d.m)]
      rw [hb]
    rw [hv]

/-! ## Round-trip lemmas: single values -/

theorem parseJVal_strLit (fuel : Nat) (s : String) (rest : List Char) :
    parseJVal (fuel + 1) (strLit s ++ rest) = some (JVal.jstr s, rest) := by
  have hshape : strLit s ++ rest = '"' :: (escString s.data ++ '"' :: rest) := by
    simp [strLit]
  rw [hshape, parseJVal.eq_def]
  simp only [List.dropWhile_cons]
  simp +decide [isJsonWs, parseJString_escString]

theorem digit_not_special (c : Char) (h : c.isDigit = true) :
    ¬c = '"' ∧ ¬c = '[' ∧ ¬c = '{' ∧ ¬c = 't' ∧ ¬c = 'f' ∧ ¬c = 'n' ∧
      isJsonWs c = false := by
  refine ⟨?_, ?_, ?_, ?_, ?_, ?_, ?_⟩ <;>
    first
    | (intro he; rw [he] at h; exact absurd h (by decide))
    | (have h1 : ¬c = ' ' := fun he => by rw [he] at h; exact absurd h (by decide)
       have h2 : ¬c = Char.ofNat 9 := fun he => by rw [he] at h; exact absurd h (by decide)
       have h3 : ¬c = Char.ofNat 10 := fun he => by rw [he] at h; exact absurd h (by decide)
       have h4 : ¬c = Char.ofNat 13 := fun he => by rw [he] at h; exact absurd h (by decide)
       simp [isJsonWs, h1, h2, h3, h4])

theorem parseJVal_numLit (fuel : Nat) (d : DecNum) (rest : List Char)
    (hrest : ∀ c, rest.head? = some c →
      c.isDigit = false ∧ ¬c = '.' ∧ ¬c = 'e' ∧ ¬c = 'E') :
    parseJVal (fuel + 1) (numLit d ++ rest) =
      some (JVal.jnum (DecNum.val d), rest) := by
  obtain ⟨c, cs, hc⟩ : ∃ c cs, numLit d = c :: cs := by
    cases hnl : numLit d with
    | nil =>
      exfalso
      unfold numLit at hnl
      by_cases hm : d.m < 0
      · rw [if_pos hm] at hnl
        exact absurd hnl (by simp)
      · rw [if_neg hm] at hnl
        by_cases hk : d.k = 0
        · rw [if_pos hk] at hnl
          exact natLit_ne_nil _ hnl
        · rw [if_neg hk] at hnl
          simp at hnl
    | cons c cs => exact ⟨c, cs, rfl⟩
  have hspecial : ¬c = '"' ∧ ¬c = '[' ∧ ¬c = '{' ∧ ¬c = 't' ∧ ¬c = 'f' ∧ ¬c = 'n' ∧
      isJsonWs c = false := by
    unfold numLit at hc
    by_cases hm : d.m < 0
    · rw [if_pos hm] at hc
      simp only [List.cons_append, List.nil_append] at hc
      have hcm : c = '-' := ((List.cons.injEq _ _ _ _).mp hc).1.symm
      subst hcm
      refine ⟨by decide, by decide, by decide, by decide, by decide, by decide, by decide⟩
    · rw [if_neg hm] at hc
      simp only [List.nil_append] at hc
      have hcd : c.isDigit = true := by
        by_cases hk : d.k = 0
        · rw [if_pos hk] at hc
          exact natLit_all_digits _ c (by rw [hc]; exact List.mem_cons_self c cs)
        · rw [if_neg hk] at hc
          obtain ⟨b, bs, hb⟩ : ∃ b bs,
              natLit (d.m.natAbs / 10 ^ d.k) = b :: bs := by
            cases hbl : natLit (d.m.natAbs / 10 ^ d.k) with
            | nil => exact absurd hbl (natLit_ne_nil _)
            | cons b bs => exact ⟨b, bs, rfl⟩
          rw [hb] at hc
          simp only [List.cons_append, List.cons.injEq] at hc
          rw [← hc.1]
          exact natLit_all_digits _ b (by rw [hb]; exact List.mem_cons_self b bs)
      exact digit_not_special c hcd
  obtain ⟨n1, n2, n3, n4, n5, n6, nws⟩ := hspecial
  rw [hc, List.cons_append, parseJVal.eq_def]
  simp only [List.dropWhile_cons, nws, Bool.false_eq_true, if_false,
    if_neg n1, if_neg n2, if_neg n3, if_neg n4, if_neg n5, if_neg n6]
  rw [show c :: (cs ++ rest) = numLit d ++ rest by rw [hc, List.cons_append],
    parseJNum_numLit d rest hrest]

/-! ## Round-trip lemmas: objects and arrays -/

/-- The JSON value `JSON.parse` recovers from one serialized issue. -/
def jvalOfIssue (i : SpecIssue) : JVal :=
  JVal.jobj ([("tier", JVal.jstr i.tier.str)] ++
    (match i.file with
     | some f => [("file", JVal.jstr f)]
     | none => []) ++
    [("line", JVal.jnum (DecNum.val i.line)), ("title", JVal.jstr i.title),
     ("explanation", JVal.jstr i.explanation)])

theorem parseJObjFields_cons (fuel : Nat) (key : String) (valLit : List Char)
    (v : JVal) (more rest : List Char) (fs : List (String × JVal))
    (hval : parseJVal fuel (valLit ++ ',' :: more) = some (v, ',' :: more))
    (hmore : parseJObjFields fuel more = some (fs, rest)) :
    parseJObjFields (fuel + 1) (strLit key ++ (':' :: (valLit ++ (',' :: more)))) =
      some ((key, v) :: fs, rest) := by
  have hshape : strLit key ++ (':' :: (valLit ++ (',' :: more))) =
      '"' :: (escString key.data ++ '"' :: (':' :: (valLit ++ (',' :: more)))) := by
    simp [strLit]
  rw [hshape, parseJObjFields.eq_def]
  simp +decide [isJsonWs, parseJString_escString, hval, hmore]

theorem parseJObjFields_last (fuel : Nat) (key : String) (valLit : List Char)
    (v : JVal) (rest : List Char)
    (hval : parseJVal fuel (valLit ++ '}' :: rest) = some (v, '}' :: rest)) :
    parseJObjFields (fuel + 1) (strLit key ++ (':' :: (valLit ++ ('}' :: rest)))) =
      some ([(key, v)], rest) := by
  have hshape : strLit key ++ (':' :: (valLit ++ ('}' :: rest))) =
      '"' :: (escString key.data ++ '"' :: (':' :: (valLit ++ ('}' :: rest)))) := by
    simp [strLit]
  rw [hshape, parseJObjFields.eq_def]
  simp +decide [isJsonWs, parseJString_escString, hval]

theorem head_cons_sep (a : Char)
    (ha : a.isDigit = false ∧ ¬a = '.' ∧ ¬a = 'e' ∧ ¬a = 'E') (X : List Char) :
    ∀ c, ((a :: X).head? = some c) →
      c.isDigit = false ∧ ¬c = '.' ∧ ¬c = 'e' ∧ ¬c = 'E' := by
  intro c hc
  simp only [List.head?_cons, Option.some.injEq] at hc
  rw [← hc]
  exact ha

theorem strLit_head_shape (key : String) (X : List Char) :
    strLit key ++ X = '"' :: (escString key.data ++ ('"' :: X)) := by
  simp [strLit]

theorem parseJVal_issueLit (k : Nat) (i : SpecIssue) (rest : List Char) :
    parseJVal (k + 7) (issueLit i ++ rest) = some (jvalOfIssue i, rest) := by
  have h5 : ∀ m, parseJObjFields (m + 2) (strLit "explanation" ++ (':' :: (strLit i.explanation ++ ('}' :: rest)))) =
      some ([("explanation", JVal.jstr i.explanation)], rest) := fun m =>
    parseJObjFields_last (m + 1) "explanation" (strLit i.explanation)
      (JVal.jstr i.explanation) rest (parseJVal_strLit m i.explanation ('}' :: rest))
  have h4 : ∀ m, parseJObjFields (m + 3) (strLit "title" ++ (':' :: (strLit i.title ++ (',' :: (strLit "explanation" ++ (':' :: (strLit i.explanation ++ ('}' :: rest)))))))) =
      some ([("title", JVal.jstr i.title),
        ("explanation", JVal.jstr i.explanation)], rest) := fun m =>
    parseJObjFields_cons (m + 2) "title" (strLit i.title) (JVal.jstr i.title) _ rest _
      (parseJVal_strLit (m + 1) i.title _) (h5 m)
  have h3 : ∀ m, parseJObjFields (m + 4) (strLit "line" ++ (':' :: (numLit i.line ++ (',' :: (strLit "title" ++ (':' :: (strLit i.title ++ (',' :: (strLit "explanation" ++ (':' :: (strLit i.explanation ++ ('}' :: rest)))))))))))) =
      some ([("line", JVal.jnum (DecNum.val i.line)), ("title", JVal.jstr i.title),
        ("explanation", JVal.jstr i.explanation)], rest) := fun m =>
    parseJObjFields_cons (m + 3) "line" (numLit i.line) (JVal.jnum (DecNum.val i.line)) _ rest _
      (parseJVal_numLit (m + 2) i.line _ (head_cons_sep ',' (by decide) _)) (h4 m)
  rcases hfile : i.file with _ | f
  · -- no `file` property: four members
    have h1 : parseJObjFields (k + 6) (strLit "tier" ++ (':' :: (strLit i.tier.str ++ (',' :: (strLit "line" ++ (':' :: (numLit i.line ++ (',' :: (strLit "title" ++ (':' :: (strLit i.title ++ (',' :: (strLit "explanation" ++ (':' :: (strLit i.explanation ++ ('}' :: rest)))))))))))))))) =
        some ([("tier", JVal.jstr i.tier.str), ("line", JVal.jnum (DecNum.val i.line)),
          ("title", JVal.jstr i.title),
          ("explanation", JVal.jstr i.explanation)], rest) :=
      parseJObjFields_cons (k + 5) "tier" (strLit i.tier.str) (JVal.jstr i.tier.str) _
        rest _ (parseJVal_strLit (k + 4) i.tier.str _) (h3 (k + 1))
    have hshape : issueLit i ++ rest = '{' :: (strLit "tier" ++ (':' :: (strLit i.tier.str ++ (',' :: (strLit "line" ++ (':' :: (numLit i.line ++ (',' :: (strLit "title" ++ (':' :: (strLit i.title ++ (',' :: (strLit "explanation" ++ (':' :: (strLit i.explanation ++ ('}' :: rest)))))))))))))))) := by
      simp [issueLit, hfile, List.append_assoc]
    have hdrop : List.dropWhile isJsonWs (strLit "tier" ++ (':' :: (strLit i.tier.str ++ (',' :: (strLit "line" ++ (':' :: (numLit i.line ++ (',' :: (strLit "title" ++ (':' :: (strLit i.title ++ (',' :: (strLit "explanation" ++ (':' :: (strLit i.explanation ++ ('}' :: rest)))))))))))))))) =
        '"' :: (escString "tier".data ++ ('"' :: (':' :: (strLit i.tier.str ++
          (',' :: (strLit "line" ++ (':' :: (numLit i.line ++ (',' :: (strLit "title" ++ (':' :: (strLit i.title ++ (',' :: (strLit "explanation" ++ (':' :: (strLit i.explanation ++ ('}' :: rest))))))))))))))))) := by
      rw [strLit_head_shape]
      simp +decide [isJsonWs]
    rw [hshape, parseJVal.eq_def]
    simp +decide [isJsonWs, hdrop, h1, jvalOfIssue, hfile]
  · -- with a `file` property: five members
    have h2 : ∀ m, parseJObjFields (m + 5) (strLit "file" ++ (':' :: (strLit f ++ (',' :: (strLit "line" ++ (':' :: (numLit i.line ++ (',' :: (strLit "title" ++ (':' :: (strLit i.title ++ (',' :: (strLit "explanation" ++ (':' :: (strLit i.explanation ++ ('}' :: rest)))))))))))))))) =
        some ([("file", JVal.jstr f), ("line", JVal.jnum (DecNum.val i.line)),
          ("title", JVal.jstr i.title),
          ("explanation", JVal.jstr i.explanation)], rest) := fun m =>
      parseJObjFields_cons (m + 4) "file" (strLit f) (JVal.jstr f) _ rest _
        (parseJVal_strLit (m + 3) f _) (h3 m)
    have h1 : parseJObjFields (k + 6) (strLit "tier" ++ (':' :: (strLit i.tier.str ++ (',' :: (strLit "file" ++ (':' :: (strLit f ++ (',' :: (strLit "line" ++ (':' :: (numLit i.line ++ (',' :: (strLit "title" ++ (':' :: (strLit i.title ++ (',' :: (strLit "explanation" ++ (':' :: (strLit i.explanation ++ ('}' :: rest)))))))))))))))))))) =
        some ([("tier", JVal.jstr i.tier.str), ("file", JVal.jstr f),
          ("line", JVal.jnum (DecNum.val i.line)), ("title", JVal.jstr i.title),
          ("explanation", JVal.jstr i.explanation)], rest) :=
      parseJObjFields_cons (k + 5) "tier" (strLit i.tier.str) (JVal.jstr i.tier.str) _
        rest _ (parseJVal_strLit (k + 4) i.tier.str _) (h2 k)
    have hshape : issueLit i ++ rest = '{' :: (strLit "tier" ++ (':' :: (strLit i.tier.str ++ (',' :: (strLit "file" ++ (':' :: (strLit f ++ (',' :: (strLit "line" ++ (':' :: (numLit i.line ++ (',' :: (strLit "title" ++ (':' :: (strLit i.title ++ (',' :: (strLit "explanation" ++ (':' :: (strLit i.explanation ++ ('}' :: rest)))))))))))))))))))) := by
      simp [issueLit, hfile, List.append_assoc]
    have hdrop : List.dropWhile isJsonWs (strLit "tier" ++ (':' :: (strLit i.tier.str ++ (',' :: (strLit "file" ++ (':' :: (strLit f ++ (',' :: (strLit "line" ++ (':' :: (numLit i.line ++ (',' :: (strLit "title" ++ (':' :: (strLit i.title ++ (',' :: (strLit "explanation" ++ (':' :: (strLit i.explanation ++ ('}' :: rest)))))))))))))))))))) =
        '"' :: (escString "tier".data ++ ('"' :: (':' :: (strLit i.tier.str ++
          (',' :: (strLit "file" ++ (':' :: (strLit f ++ (',' :: (strLit "line" ++ (':' :: (numLit i.line ++ (',' :: (strLit "title" ++ (':' :: (strLit i.title ++ (',' :: (strLit "explanation" ++ (':' :: (strLit i.explanation ++ ('}' :: rest))))))))))))))))))))) := by
      rw [strLit_head_shape]
      simp +decide [isJsonWs]
    rw [hshape, parseJVal.eq_def]
    simp +decide [isJsonWs, hdrop, h1, jvalOfIssue, hfile]

theorem parseJVal_issueLit_le (fuel : Nat) (i : SpecIssue) (rest : List Char)
    (h : 7 ≤ fuel) :
    parseJVal fuel (issueLit i ++ rest) = some (jvalOfIssue i, rest) := by
  obtain ⟨k, rfl⟩ : ∃ k, fuel = k + 7 := ⟨fuel - 7, by omega⟩
  exact parseJVal_issueLit k i rest

theorem parseJArrElems_issues :
    ∀ (l : List SpecIssue) (fuel : Nat) (rest : List Char), l ≠ [] →
      l.length + 8 ≤ fuel →
      parseJArrElems fuel (issuesLitAux l ++ (']' :: rest)) =
        some (l.map jvalOfIssue, rest) := by
  intro l
  induction l with
  | nil => intro fuel rest h _; exact absurd rfl h
  | cons i tl ih =>
    intro fuel rest _ hfuel
    obtain ⟨f, rfl⟩ : ∃ f, fuel = f + 1 := ⟨fuel - 1, by omega⟩
    cases tl with
    | nil =>
      have hv : parseJVal f (issueLit i ++ (']' :: rest)) =
          some (jvalOfIssue i, ']' :: rest) :=
        parseJVal_issueLit_le f i (']' :: rest) (by simp at hfuel; omega)
      rw [show issuesLitAux [i] = issueLit i from rfl, parseJArrElems.eq_def]
      simp +decide [isJsonWs, hv]
    | cons j tl' =>
      have hshape : issuesLitAux (i :: j :: tl') ++ (']' :: rest) =
          issueLit i ++ (',' :: (issuesLitAux (j :: tl') ++ (']' :: rest))) := by
        simp [issuesLitAux, List.append_assoc]
      have hv : parseJVal f
          (issueLit i ++ (',' :: (issuesLitAux (j :: tl') ++ (']' :: rest)))) =
          some (jvalOfIssue i,
            ',' :: (issuesLitAux (j :: tl') ++ (']' :: rest))) :=
        parseJVal_issueLit_le f i _ (by simp at hfuel; omega)
      have hih : parseJArrElems f (issuesLitAux (j :: tl') ++ (']' :: rest)) =
          some ((j :: tl').map jvalOfIssue, rest) :=
        ih f rest (List.cons_ne_nil j tl') (by simp at hfuel ⊢; omega)
      rw [hshape, parseJArrElems.eq_def]
      simp +decide [isJsonWs, hv, hih]

theorem issueLit_length (i : SpecIssue) : 8 ≤ (issueLit i).length := by
  have h6 : (strLit "tier").length = 6 := rfl
  simp [issueLit, List.length_append, h6]
  omega

theorem issuesLitAux_length (l : List SpecIssue) (h : l ≠ []) :
    l.length + 7 ≤ (issuesLitAux l).length := by
  induction l with
  | nil => exact absurd rfl h
  | cons i tl ih =>
    cases tl with
    | nil =>
      rw [show issuesLitAux [i] = issueLit i from rfl]
      have := issueLit_length i
      simp
      omega
    | cons j tl' =>
      rw [show issuesLitAux (i :: j :: tl') =
        issueLit i ++ ',' :: issuesLitAux (j :: tl') from rfl]
      have h1 := issueLit_length i
      have h2 := ih (List.cons_ne_nil j tl')
      simp at h2 ⊢
      omega

theorem jsonParseChars_issues (l : List SpecIssue) :
    jsonParseChars ('[' :: (issuesLitAux l ++ [']'])) =
      some (JVal.jarr (l.map jvalOfIssue)) := by
  cases l with
  | nil => rfl
  | cons i tl =>
    have hne : (i :: tl) ≠ [] := List.cons_ne_nil i tl
    have hlen := issuesLitAux_length (i :: tl) hne
    have hhead : ∃ t, issuesLitAux (i :: tl) = '{' :: t := by
      cases tl with
      | nil => exact ⟨_, rfl⟩
      | cons j tl' => exact ⟨_, rfl⟩
    obtain ⟨t, ht⟩ := hhead
    unfold jsonParseChars
    have hfuel : ('[' :: (issuesLitAux (i :: tl) ++ [']'])).length =
        (issuesLitAux (i :: tl)).length + 2 := by simp
    have harr : parseJArrElems ((issuesLitAux (i :: tl)).length + 2)
        (issuesLitAux (i :: tl) ++ (']' :: [])) =
        some ((i :: tl).map jvalOfIssue, []) :=
      parseJArrElems_issues (i :: tl) _ [] hne (by simp at hlen ⊢; omega)
    rw [hfuel, parseJVal.eq_def]
    rw [ht] at harr ⊢
    norm_num at harr
    simp +decide [isJsonWs, harr]

/-! ## The pipeline on serialized issue lists (claim C7) -/

theorem jsTrim_bracketed (xs : List Char) :
    jsTrim ('[' :: (xs ++ [']'])) = '[' :: (xs ++ [']']) := by
  unfold jsTrim
  rw [List.dropWhile_cons, if_neg (by decide)]
  rw [show ('[' :: (xs ++ [']'])).reverse = ']' :: (xs.reverse ++ ['[']) from by simp]
  rw [List.dropWhile_cons, if_neg (by decide)]
  simp

theorem arraySpan_bracketed (xs : List Char) :
    arraySpan ('[' :: (xs ++ [']'])) = some ('[' :: (xs ++ [']'])) := by
  simp +decide [arraySpan, List.dropWhile_cons]

theorem isValid_jvalOfIssue (i : SpecIssue) :
    isValidIssue (jvalOfIssue i) = true := by
  obtain ⟨t, fl, ln, ti, ex⟩ := i
  cases t <;> cases fl <;>
    simp +decide [jvalOfIssue, isValidIssue, getField, Tier.str]

theorem normalize_jvalOfIssue (i : SpecIssue) :
    normalizeIssue (jvalOfIssue i) = expectedIssue i := by
  obtain ⟨t, fl, ln, ti, ex⟩ := i
  cases fl <;>
    simp +decide [jvalOfIssue, normalizeIssue, getField, expectedIssue]

theorem map_normalize_jvalOfIssue (l : List SpecIssue) :
    List.map (normalizeIssue ∘ jvalOfIssue) l = List.map expectedIssue l := by
  induction l with
  | nil => rfl
  | cons i tl ih =>
    simp only [List.map_cons, Function.comp_apply, normalize_jvalOfIssue, ih]

/-- C7 (amended): serializing any list of valid issue objects to JSON and
passing the result through the response parser yields the equivalent
normalized list — tier preserved, line rounded (half-ties toward positive
infinity, as `Math.round`) and floored at 1, title truncated to 80
characters, explanation truncated to 500 characters, file defaulted to the
empty string when absent — provided the serialized text does not contain a
markdown code fence (two ``` sequences), which the fence-stripping regex
would otherwise fire on. -/
theorem spec_C7_roundtrip (l : List SpecIssue)
    (hfence : fenceExtract (stringifyIssues l).data = none) :
    parseResponse (stringifyIssues l) = l.map expectedIssue := by
  have hdata : (stringifyIssues l).data = '[' :: (issuesLitAux l ++ [']']) := rfl
  unfold parseResponse
  rw [hdata] at hfence ⊢
  simp only [jsTrim_bracketed, hfence, arraySpan_bracketed, jsonParseChars_issues]
  rw [List.filter_eq_self.mpr]
  · rw [List.map_map]
    exact map_normalize_jvalOfIssue l
  · intro v hv
    simp only [List.mem_map] at hv
    obtain ⟨i, _, rfl⟩ := hv
    exact isValid_jvalOfIssue i

/-- A perfectly valid issue object whose title happens to contain two
backtick fences. -/
def c7Bad : SpecIssue :=
  { tier := Tier.high
    file := none
    line := ⟨1, 0⟩
    title := "a```b```c"
    explanation := "E" }

set_option maxRecDepth 1000000 in
/-- C7 as stated is false: for the valid issue `c7Bad`, the fence-stripping
regex of `parseResponse` fires inside the serialized title, the remaining
text contains no JSON array, and the parser returns the empty list instead
of the equivalent one-element list. -/
theorem spec_C7_counterexample :
    parseResponse (stringifyIssues [c7Bad]) = [] ∧
      List.map expectedIssue [c7Bad] ≠ [] := by
  constructor
  · with_unfolding_all rfl
  · simp

/-- A list of valid issue objects with escapes, brackets and an absent file
property, but no code fence. -/
def c7Good : List SpecIssue :=
  [{ tier := Tier.high
     file := some "a.ts"
     line := ⟨26, 1⟩
     title := "T\"x]"
     explanation := "E\nz" },
   { tier := Tier.low
     file := none
     line := ⟨-5, 1⟩
     title := "U"
     explanation := "F" }]

set_option maxRecDepth 1000000 in
theorem spec_C7_witness :
    fenceExtract (stringifyIssues c7Good).data = none ∧
      parseResponse (stringifyIssues c7Good) = c7Good.map expectedIssue :=
  ⟨by with_unfolding_all rfl, spec_C7_roundtrip c7Good (by with_unfolding_all rfl)⟩

/-!
## The agentic review loop of `reviewEngine.ts`

The streamed model response is a list of chunks (text parts and tool-call
parts); a model stub maps the invocation index to its streamed chunks.
The tool registry (`executeToolCall` of `workspaceTools.ts`) is a
collaborator parameter returning a result string — it never throws, all
its failures are encoded as strings.  Cancellation tokens are not
modelled: the claims below concern uncancelled runs. -/

/-- One streamed response chunk (`LanguageModelTextPart` /
`LanguageModelToolCallPart`). -/
inductive Chunk where
  | text (s : String)
  | toolCall (name : String) (callId : String) (input : List (String × String))
  deriving DecidableEq

/-- A conversation message (`LanguageModelChatMessage`).  Tool results
carry `(callId, resultText)` pairs (`LanguageModelToolResultPart`). -/
inductive Msg where
  | user (s : String)
  | assistant (content : List Chunk)
  | toolResults (results : List (String × String))
  deriving DecidableEq

/-- A language-model stub: the chunk stream of the n-th `sendRequest`. -/
abbrev ModelStub := Nat → List Chunk

/-- The `executeToolCall` collaborator. -/
abbrev ToolRegistry := String → List (String × String) → String

/-- The text parts of a streamed response, in order. -/
def chunkTexts (cs : List Chunk) : List String :=
  cs.filterMap fun c =>
    match c with
    | Chunk.text s => some s
    | _ => none

/-- The tool-call parts of a streamed response, in order. -/
def chunkCalls (cs : List Chunk) : List (String × String × List (String × String)) :=
  cs.filterMap fun c =>
    match c with
    | Chunk.toolCall name callId input => some (name, callId, input)
    | _ => none

/-- Observable outcome of one `runAgentLoop` call: the returned issues,
the number of `sendRequest` invocations, the final conversation, and the
tool executions in order (name, input). -/
structure AgentResult where
  issues : List ReviewIssue
  invocations : Nat
  messages : List Msg
  toolLog : List (String × List (String × String))
  deriving DecidableEq

/-- `MAX_AGENT_ITERATIONS` of `reviewEngine.ts` (line 39). -/
def MAX_AGENT_ITERATIONS : Nat := 10

/-- The iteration body of `runAgentLoop` (lines 317–362): send the current
conversation, split the streamed chunks into texts and tool calls; with no
tool calls, parse the joined text and stop; otherwise append the assistant
turn (texts first, then the calls, as the source pushes
`[...textParts, ...toolCallParts]`), execute every call in order, append
one user turn with all results, and iterate. -/
def runLoopAux (model : ModelStub) (tools : ToolRegistry) :
    Nat → Nat → List Msg → List (String × List (String × String)) → AgentResult
  | 0, invoc, msgs, log =>
    { issues := [], invocations := invoc, messages := msgs, toolLog := log }
  | fuel + 1, invoc, msgs, log =>
    let chunks := model invoc
    let texts := chunkTexts chunks
    let calls := chunkCalls chunks
    if calls = [] then
      { issues := parseResponse (String.join texts)
        invocations := invoc + 1
        messages := msgs
        toolLog := log }
    else
      let assistantMsg := Msg.assistant
        (texts.map Chunk.text ++ calls.map fun c => Chunk.toolCall c.1 c.2.1 c.2.2)
      let results := calls.map fun c => (c.2.1, tools c.1 c.2.2)
      runLoopAux model tools fuel (invoc + 1)
        (msgs ++ [assistantMsg, Msg.toolResults results])
        (log ++ calls.map fun c => (c.1, c.2.2))

/-- `runAgentLoop` of `reviewEngine.ts` (lines 304–366): two opening user
messages (system prompt, user prompt), then up to `MAX_AGENT_ITERATIONS`
iterations; an exhausted budget returns the empty issue list. -/
def runAgentLoop (model : ModelStub) (tools : ToolRegistry)
    (systemPrompt userPrompt : String) : AgentResult :=
  runLoopAux model tools MAX_AGENT_ITERATIONS 0
    [Msg.user systemPrompt, Msg.user userPrompt] []

/-- The model lists the two `selectChatModels` queries of `callLLM` return:
first the configured family, then the any-Copilot fallback. -/
structure LMEnv where
  familyModels : List ModelStub
  anyModels : List ModelStub

/-- The message of the fatal error thrown by `callLLM` (line 284). -/
def noModelsError : String :=
  "No Copilot models available. Ensure GitHub Copilot is installed and active."

/-- `callLLM` of `reviewEngine.ts` (lines 271–292): prefer the configured
family, fall back to any Copilot model, and throw when none exists at
all.  `.error` models a rejected promise. -/
def callLLM (lm : LMEnv) (tools : ToolRegistry)
    (systemPrompt userPrompt : String) : Except String (List ReviewIssue) :=
  match lm.familyModels with
  | m :: _ => .ok (runAgentLoop m tools systemPrompt userPrompt).issues
  | [] =>
    match lm.anyModels with
    | [] => .error noModelsError
    | m :: _ => .ok (runAgentLoop m tools systemPrompt userPrompt).issues

/-- Collaborators and configuration of one review.  The git collaborator
calls may reject (`.error`), exactly like the promises of `gitService`. -/
structure ReviewEnv where
  lm : LMEnv
  tools : ToolRegistry
  getFileDiff : String → Except String String
  getRecentHistory : String → Except String String
  maxDiffChars : Nat
  systemPrompt : String

/-- `buildUserPrompt` of `reviewEngine.ts` (lines 250–262). -/
def buildUserPrompt (filePath diff history : String) : String :=
  "Review this file change for risks that a human developer must verify.\n\n" ++
    ("File: " ++ filePath ++ "\n\n") ++
    (if history ≠ "" then "Recent git history for this file:\n" ++ history ++ "\n\n"
     else "") ++
    ("Diff:\n```\n" ++ diff ++ "\n```\n\n") ++
    "Respond with a JSON array of issues. If no issues, respond with []."

/-- `reviewFile` of `reviewEngine.ts` (lines 192–212): fetch the diff (a
rejected fetch propagates — there is no try/catch here), return `[]` for an
empty diff, fetch history, call the model and stamp the reviewed file path
onto every returned issue. -/
def reviewFile (env : ReviewEnv) (filePath : String) :
    Except String (List ReviewIssue) :=
  match env.getFileDiff filePath with
  | .error e => .error e
  | .ok diff =>
    if diff = "" then .ok []
    else
      match env.getRecentHistory filePath with
      | .error e => .error e
      | .ok history =>
        let userPrompt :=
          buildUserPrompt filePath (truncateText diff env.maxDiffChars) history
        match callLLM env.lm env.tools env.systemPrompt userPrompt with
        | .error e => .error e
        | .ok issues => .ok (issues.map fun i => { i with file := filePath })

/-- `reviewFiles` of `reviewEngine.ts` (lines 223–245): sequential sweep,
every per-file error caught and logged, accumulated issues returned.
(The cancellation check between files is not modelled.) -/
def reviewFiles (env : ReviewEnv) (filePaths : List String) : List ReviewIssue :=
  filePaths.foldl
    (fun allIssues f =>
      match reviewFile env f with
      | .ok fileIssues => allIssues ++ fileIssues
      | .error _ => allIssues)
    []

/-! ## Chunk bookkeeping lemmas -/

theorem chunkTexts_texts (ts : List String) :
    chunkTexts (ts.map Chunk.text) = ts := by
  induction ts with
  | nil => rfl
  | cons t ts ih =>
    simp only [chunkTexts, List.filterMap_cons] at ih ⊢
    simp [ih]

theorem chunkCalls_texts (ts : List String) :
    chunkCalls (ts.map Chunk.text) = [] := by
  induction ts with
  | nil => rfl
  | cons t ts ih =>
    simp only [chunkCalls, List.filterMap_cons] at ih ⊢
    simp [ih]

theorem chunkTexts_append (a b : List Chunk) :
    chunkTexts (a ++ b) = chunkTexts a ++ chunkTexts b := by
  simp [chunkTexts]

theorem chunkCalls_append (a b : List Chunk) :
    chunkCalls (a ++ b) = chunkCalls a ++ chunkCalls b := by
  simp [chunkCalls]

/-- C4: a model that issues one tool call (possibly with leading text) on
its first invocation and a terminal tool-call-free response on its second
makes the loop execute that tool exactly once with the requested input,
record exactly 2 model invocations, append the assistant turn plus one
user turn carrying the tool result tagged with its call identifier, and
return the issues parsed from the terminal response. -/
theorem spec_C4_single_tool_then_terminal (model : ModelStub)
    (tools : ToolRegistry) (systemPrompt userPrompt : String)
    (preTexts : List String) (nm callId : String)
    (input : List (String × String)) (termTexts : List String)
    (h0 : model 0 = preTexts.map Chunk.text ++ [Chunk.toolCall nm callId input])
    (h1 : model 1 = termTexts.map Chunk.text) :
    runAgentLoop model tools systemPrompt userPrompt =
      { issues := parseResponse (String.join termTexts)
        invocations := 2
        messages := [Msg.user systemPrompt, Msg.user userPrompt,
          Msg.assistant (preTexts.map Chunk.text ++ [Chunk.toolCall nm callId input]),
          Msg.toolResults [(callId, tools nm input)]]
        toolLog := [(nm, input)] } := by
  have e0 : runAgentLoop model tools systemPrompt userPrompt =
      runLoopAux model tools (9 + 1) 0
        [Msg.user systemPrompt, Msg.user userPrompt] [] := rfl
  rw [e0]
  simp only [runLoopAux, h0, chunkTexts_append, chunkCalls_append, chunkTexts_texts,
    chunkCalls_texts]
  simp only [show chunkTexts [Chunk.toolCall nm callId input] = [] from rfl,
    show chunkCalls [Chunk.toolCall nm callId input] = [(nm, callId, input)] from rfl,
    List.append_nil, List.nil_append]
  rw [if_neg (by simp)]
  have h1' : model (0 + 1) = List.map Chunk.text termTexts := by
    rw [Nat.zero_add]; exact h1
  rw [h1', chunkCalls_texts, if_pos rfl, chunkTexts_texts]
  simp

/-- The tool registry used by the loop witnesses. -/
def cTools : ToolRegistry := fun _ _ => "export function login() \x7b\x7d"

/-- A model stub that calls `readFile` once and then finalizes with `[]`. -/
def c4Model : ModelStub := fun n =>
  if n = 0 then [Chunk.toolCall "readFile" "call-001" [("path", "src/utils.ts")]]
  else [Chunk.text "[]"]

theorem spec_C4_witness :
    runAgentLoop c4Model cTools "sys" "user" =
      { issues := parseResponse (String.join ["[]"])
        invocations := 2
        messages := [Msg.user "sys", Msg.user "user",
          Msg.assistant [Chunk.toolCall "readFile" "call-001" [("path", "src/utils.ts")]],
          Msg.toolResults [("call-001", cTools "readFile" [("path", "src/utils.ts")])]]
        toolLog := [("readFile", [("path", "src/utils.ts")])] } :=
  spec_C4_single_tool_then_terminal c4Model cTools "sys" "user" [] "readFile"
    "call-001" [("path", "src/utils.ts")] ["[]"] rfl rfl

/-- With a model that never stops calling tools, every iteration takes the
tool branch, so the loop runs the full budget and ends with no issues. -/
theorem runLoopAux_all_calls (model : ModelStub) (tools : ToolRegistry)
    (hcalls : ∀ n, chunkCalls (model n) ≠ []) :
    ∀ (fuel invoc : Nat) (msgs : List Msg)
      (log : List (String × List (String × String))),
      (runLoopAux model tools fuel invoc msgs log).issues = [] ∧
        (runLoopAux model tools fuel invoc msgs log).invocations = invoc + fuel := by
  intro fuel
  induction fuel with
  | zero => intro invoc msgs log; exact ⟨rfl, rfl⟩
  | succ f ih =>
    intro invoc msgs log
    simp only [runLoopAux, if_neg (hcalls invoc)]
    obtain ⟨i1, i2⟩ := ih (invoc + 1) _ _
    exact ⟨i1, by rw [i2]; omega⟩

/-- C5: a model that issues at least one tool call on every response and
never produces a terminal response makes the loop perform exactly 10
iterations (model invocations) and return an empty issue list. -/
theorem spec_C5_iteration_ceiling (model : ModelStub) (tools : ToolRegistry)
    (systemPrompt userPrompt : String)
    (hcalls : ∀ n, chunkCalls (model n) ≠ []) :
    (runAgentLoop model tools systemPrompt userPrompt).issues = [] ∧
      (runAgentLoop model tools systemPrompt userPrompt).invocations = 10 :=
  runLoopAux_all_calls model tools hcalls MAX_AGENT_ITERATIONS 0 _ _

/-- A model stub that always requests a tool call and never finalizes. -/
def c5Model : ModelStub := fun _ =>
  [Chunk.toolCall "listDirectory" "call-x" [("path", ".")]]

theorem spec_C5_witness :
    (runAgentLoop c5Model cTools "sys" "user").issues = [] ∧
      (runAgentLoop c5Model cTools "sys" "user").invocations = 10 :=
  spec_C5_iteration_ceiling c5Model cTools "sys" "user" (fun n => by simp [c5Model, chunkCalls])

/-! ## Fatal no-model error (claim C6) -/

/-- C6 (amended): when no language model is available at all — the
configured family and the any-provider fallback both come back empty —
the review call rejects with the fatal no-models error rather than
returning an empty list; and an abort of `reviewFile` happens exactly
then, or when the version-control collaborator itself rejects while
fetching the diff or the history (those rejections propagate uncaught —
the no-model error is the only error the review engine itself raises). -/
theorem spec_C6_fatal_no_models (env : ReviewEnv) (filePath : String) :
    ((∃ d, env.getFileDiff filePath = .ok d ∧ d ≠ "" ∧
        (∃ h, env.getRecentHistory filePath = .ok h)) →
      env.lm.familyModels = [] → env.lm.anyModels = [] →
      reviewFile env filePath = .error noModelsError) ∧
    ((∃ e, reviewFile env filePath = .error e) ↔
      ((∃ e, env.getFileDiff filePath = .error e) ∨
       (∃ d, env.getFileDiff filePath = .ok d ∧ d ≠ "" ∧
         ((∃ e, env.getRecentHistory filePath = .error e) ∨
          ((∃ h, env.getRecentHistory filePath = .ok h) ∧
            env.lm.familyModels = [] ∧ env.lm.anyModels = []))))) := by
  rcases hd : env.getFileDiff filePath with e | d
  · constructor
    · rintro ⟨d, hd2, -, -⟩ - -
      exact absurd hd2 (by simp)
    · simp [reviewFile, hd]
  · by_cases hde : d = ""
    · subst hde
      constructor
      · rintro ⟨d', hd2, hde', -⟩ - -
        simp only [Except.ok.injEq] at hd2
        exact absurd hd2.symm hde'
      · simp [reviewFile, hd]
    · rcases hh : env.getRecentHistory filePath with e | h
      · constructor
        · rintro ⟨d', -, -, h', hh2⟩ - -
          exact absurd hh2 (by simp)
        · constructor
          · intro _
            exact Or.inr ⟨d, rfl, hde, Or.inl ⟨e, rfl⟩⟩
          · intro _
            exact ⟨e, by simp [reviewFile, hd, hde, hh]⟩
      · rcases hf : env.lm.familyModels with _ | ⟨m, ms⟩
        · rcases ha : env.lm.anyModels with _ | ⟨m, ms⟩
          · constructor
            · intro _ _ _
              simp [reviewFile, hd, hde, hh, callLLM, hf, ha]
            · constructor
              · intro _
                exact Or.inr ⟨d, rfl, hde, Or.inr ⟨⟨h, rfl⟩, rfl, rfl⟩⟩
              · intro _
                exact ⟨noModelsError, by
                  simp [reviewFile, hd, hde, hh, callLLM, hf, ha]⟩
          · constructor
            · rintro - - ha2
              exact absurd ha2 (by simp)
            · constructor
              · rintro ⟨e, he⟩
                simp [reviewFile, hd, hde, hh, callLLM, hf, ha] at he
              · rintro (⟨e, he⟩ | ⟨d', hd2, -, (⟨e, he⟩ | ⟨-, -, ha2⟩)⟩)
                · exact absurd he (by simp)
                · exact absurd he (by simp)
                · exact absurd ha2 (by simp)
        · constructor
          · rintro - hf2 -
            exact absurd hf2 (by simp)
          · constructor
            · rintro ⟨e, he⟩
              simp [reviewFile, hd, hde, hh, callLLM, hf] at he
            · rintro (⟨e, he⟩ | ⟨d', hd2, -, (⟨e, he⟩ | ⟨-, hf2, -⟩)⟩)
              · exact absurd he (by simp)
              · exact absurd he (by simp)
              · exact absurd hf2 (by simp)

/-- An environment with a model available but a failing diff fetch. -/
def c6Env : ReviewEnv :=
  { lm := { familyModels := [fun _ => [Chunk.text "[]"]], anyModels := [] }
    tools := cTools
    getFileDiff := fun _ => .error "git failure"
    getRecentHistory := fun _ => .ok ""
    maxDiffChars := 15000
    systemPrompt := "sys" }

/-- C6's 'only condition' half is false as stated: with a language model
available, a rejected diff fetch also aborts the review with an error. -/
theorem spec_C6_counterexample :
    c6Env.lm.familyModels ≠ [] ∧ reviewFile c6Env "a.ts" = .error "git failure" :=
  ⟨by simp [c6Env], rfl⟩

/-- An environment with no language models at all. -/
def c6NoModelEnv : ReviewEnv :=
  { lm := { familyModels := [], anyModels := [] }
    tools := cTools
    getFileDiff := fun _ => .ok "diff"
    getRecentHistory := fun _ => .ok "hist"
    maxDiffChars := 15000
    systemPrompt := "sys" }

theorem spec_C6_witness :
    reviewFile c6NoModelEnv "a.ts" = .error noModelsError :=
  (spec_C6_fatal_no_models c6NoModelEnv "a.ts").1
    ⟨"diff", rfl, by decide, ⟨"hist", rfl⟩⟩ rfl rfl

/-! ## The multi-file sweep never rejects (claim C10) -/

theorem reviewFiles_foldl (env : ReviewEnv) :
    ∀ (filePaths : List String) (acc : List ReviewIssue),
      filePaths.foldl
        (fun allIssues f =>
          match reviewFile env f with
          | .ok fileIssues => allIssues ++ fileIssues
          | .error _ => allIssues) acc =
      acc ++ (filePaths.map fun f =>
        match reviewFile env f with
        | .ok fileIssues => fileIssues
        | .error _ => []).flatten := by
  intro filePaths
  induction filePaths with
  | nil => intro acc; simp
  | cons f fs ih =>
    intro acc
    rcases hr : reviewFile env f with e | fileIssues
    · simp only [List.foldl_cons, hr, List.map_cons, List.flatten_cons, ih]
      simp
    · simp only [List.foldl_cons, hr, List.map_cons, List.flatten_cons, ih]
      simp

/-- C10: `reviewFiles` never rejects — every per-file error (including the
fatal no-model error) is swallowed inside the per-file loop, the sweep
continues, and the concatenated issues of the files that succeeded are
returned in order. -/
theorem spec_C10_reviewFiles_never_rejects (env : ReviewEnv)
    (filePaths : List String) :
    reviewFiles env filePaths =
      (filePaths.map fun f =>
        match reviewFile env f with
        | .ok fileIssues => fileIssues
        | .error _ => []).flatten := by
  rw [reviewFiles, reviewFiles_foldl env filePaths [], List.nil_append]

end AgentWatch
